import Mathlib

/-!
# Verification of the cgpm `View` (gpmcc/mixtures/view.py)

This file gives a shallow embedding of the `View` class from
`src/src/mixtures/view.py` — the CrossCat-style row-mixture component that
owns a CRP row partition (`Zr`, `Nk`, `alpha`), a collection of per-column
component models (`dims`), the Gibbs row-transition kernel, and the
logpdf/simulate query engine — and proves or refutes the specification
claims about it.

## Representation conventions

* The source computes throughout in **log space** (`logpdf`, `logsumexp`,
  `logmeanexp`, `log_normalize`, log-weight vectors).  The embedding
  represents every such quantity in **linear space** over `ℚ`:
  a log-likelihood becomes a likelihood (a nonnegative rational),
  `-infinity` becomes `0`, addition of logs becomes multiplication,
  `logsumexp` becomes a sum, `logmeanexp` becomes a mean, and
  `log_normalize` becomes division by the total.  This keeps every
  definition executable while preserving the algorithmic structure
  exactly.
* The `Dim` component-model class and the `gpmcc.utils.general` helpers
  are not part of the selected sources; wherever they are needed they are
  modelled from the specification (each such definition carries a
  doc comment starting with `Modelled from the spec:`).  The `View`
  methods themselves are translated line by line from
  `src/src/mixtures/view.py`.
* Randomness: every stochastic primitive consumes an explicit oracle
  (`Rng`, a stream of naturals); a categorical draw returns an index in
  the support of its weight vector, selected by the oracle.
-/

/-- A stream of oracle values standing for the state of the view's RNG.
Each categorical draw / simulation consumes one element. -/
abbrev Rng := List ℕ

/-- Pop the next oracle value (0 once the stream is exhausted). -/
def rngNext : Rng → ℕ × Rng
  | [] => (0, [])
  | n :: r => (n, r)

/-- Modelled from the spec: `gu.log_pflip` draws an index with probability
proportional to the given (log-space) weights.  In the linear-space
embedding the weights are nonnegative rationals and the draw returns an
index in the support (weight `> 0`), selected by the oracle seed; if the
weight vector is empty or has empty support the draw returns `0`. -/
def pflip (ws : List ℚ) (seed : ℕ) : ℕ :=
  let pos := (List.range ws.length).filter (fun i => decide (0 < ws.getD i 0))
  if pos.isEmpty then 0 else pos.getD (seed % pos.length) 0

/-- Per-cluster sufficient-statistic record of a component model.
Modelled from the spec: a collapsed family holds count/sum-style
statistics with parameters integrated out (`§3`, `§4.2`): `n` counts the
incorporated non-missing values and `sumx` is their sum. -/
structure DimCluster where
  n : ℕ
  sumx : ℚ
deriving DecidableEq, Repr

/-- The empty sufficient-statistic record: what a fresh cluster (or the
auxiliary model used to seed one) holds before any data is incorporated. -/
def DimCluster.empty : DimCluster := ⟨0, 0⟩

/-- A component model / `Dim`: one column's per-cluster statistics.
Modelled from the spec (`§4.2`): `index` is the column id, `inputs` the
root columns a conditional column reads, `conditional` the root/leaf
flag, `hypers` the shared hyperparameter, and `clusters` the ordered list
of per-cluster sufficient-statistic records (whose length must stay in
lockstep with the partition's `K`). -/
structure Dim where
  index : ℕ
  inputs : List ℕ
  conditional : Bool
  hypers : ℚ
  clusters : List DimCluster
deriving DecidableEq, Repr

/-- Update the element at position `i` (no-op when out of range). -/
def updNth {α : Type} (l : List α) (i : ℕ) (f : α → α) : List α :=
  match l, i with
  | [], _ => []
  | a :: t, 0 => f a :: t
  | a :: t, i + 1 => a :: updNth t i f

/-- Pad a cluster list with fresh (empty) records until it has at least
`k + 1` entries.  Modelled from the spec: adding a cluster slot seeds it
from the auxiliary model, i.e. with empty statistics (`§4.2`). -/
def padClusters (cs : List DimCluster) (k : ℕ) : List DimCluster :=
  cs ++ List.replicate (k + 1 - cs.length) DimCluster.empty

/-- Add one value to a sufficient-statistic record; the missing-value
sentinel (`none`) is excluded from the statistics (`§4.2`). -/
def DimCluster.add (c : DimCluster) (x : Option ℚ) : DimCluster :=
  match x with
  | none => c
  | some v => ⟨c.n + 1, c.sumx + v⟩

/-- Remove one value from a sufficient-statistic record. -/
def DimCluster.sub (c : DimCluster) (x : Option ℚ) : DimCluster :=
  match x with
  | none => c
  | some v => ⟨c.n - 1, c.sumx - v⟩

/-- Modelled from the spec: `Dim.incorporate` updates cluster `k`'s
sufficient statistics with the row's value, creating the cluster slot
first when `k` is one past the end (`§4.2`). -/
def Dim.incorporate (d : Dim) (x : Option ℚ) (k : ℕ) : Dim :=
  { d with clusters := updNth (padClusters d.clusters k) k (·.add x) }

/-- Modelled from the spec: `Dim.unincorporate` removes the row's value
from cluster `k`'s sufficient statistics (`§4.2`). -/
def Dim.unincorporate (d : Dim) (x : Option ℚ) (k : ℕ) : Dim :=
  { d with clusters := updNth d.clusters k (·.sub x) }

/-- `del dim.clusters[k]` (view.py line 163): drop the statistic record
of a removed cluster — dropped, not zeroed. -/
def Dim.dropCluster (d : Dim) (k : ℕ) : Dim :=
  { d with clusters := d.clusters.eraseIdx k }

/-- Modelled from the spec: the likelihood of value `x` under cluster
`k`'s current statistics, in linear space (`§4.2`).  A concrete collapsed
family standing in for the pluggable families: the likelihood is positive
on a support that grows with the cluster's count and `0` outside it
(giving the `-infinity` log-likelihoods the degenerate-evidence claims
are about); a conditional column's likelihood additionally depends on the
root values `ev` of the same row.  Out-of-range `k` (the synthetic new
cluster) evaluates under the auxiliary (empty) model.  A missing value
contributes likelihood `1` (log `0`). -/
def Dim.like (d : Dim) (x : Option ℚ) (ev : List ℚ) (k : ℕ) : ℚ :=
  match x with
  | none => 1
  | some v =>
    let c := d.clusters.getD k DimCluster.empty
    let base : ℚ :=
      if v ^ 2 ≤ ((c.n : ℚ) + 1) ^ 2 then 1 / ((c.n : ℚ) + 1 + (v - c.sumx) ^ 2) else 0
    if d.conditional then base * (1 / (1 + ev.sum ^ 2)) else base

/-- Modelled from the spec: one posterior-predictive draw from cluster
`k` (`§4.2` `simulate`), as a deterministic function of the oracle seed;
a conditional column's draw additionally depends on the root values `ev`
of the same row. -/
def Dim.simulateVal (d : Dim) (ev : List ℚ) (k : ℕ) (seed : ℕ) : ℚ :=
  let c := d.clusters.getD k DimCluster.empty
  (c.sumx + ev.sum + seed) / ((c.n : ℚ) + 1)

/-- Modelled from the spec: a component model's total marginal likelihood
(`dim.logpdf_score()`, `§4.3`), in linear space: the product over its
clusters of a per-cluster marginal determined by the sufficient
statistics and the shared hyperparameter. -/
def Dim.score (d : Dim) : ℚ :=
  (d.clusters.map (fun c => 1 / ((c.n : ℚ) + d.hypers ^ 2 + 1 + c.sumx ^ 2))).prod

/-- Modelled from the spec: the discrete hyperparameter grid used by
grid-Gibbs hyperparameter transitions (`§4.2`). -/
def hyperGrid : List ℚ := (List.range 30).map (fun (i : ℕ) => (i : ℚ) + 1)

/-- Modelled from the spec: `dim.transition_hypers()` / `transition_params()`
resample the shared hyperparameter by grid Gibbs: score each grid value
against all clusters' statistics jointly, draw one by categorical
sampling (`§4.2`).  Cluster records are untouched. -/
def Dim.transitionHypers (d : Dim) (seed : ℕ) : Dim :=
  let scores := hyperGrid.map
    (fun h => (d.clusters.map (fun c => 1 / ((c.n : ℚ) + h ^ 2 + 1 + c.sumx ^ 2))).prod)
  { d with hypers := hyperGrid.getD (pflip scores seed) 1 }

/-- Sorted-insert of a `(rowid, label)` pair into an association list kept
strictly sorted by rowid; an existing binding for the rowid is overwritten
(dict assignment `self.Zr[rowid] = k`). -/
def insertZr (r k : ℕ) : List (ℕ × ℕ) → List (ℕ × ℕ)
  | [] => [(r, k)]
  | p :: t =>
    if r < p.1 then (r, k) :: p :: t
    else if r = p.1 then (r, k) :: t
    else p :: insertZr r k t

/-- Remove a rowid's binding (`del self.Zr[rowid]`). -/
def eraseZr (r : ℕ) (l : List (ℕ × ℕ)) : List (ℕ × ℕ) :=
  l.filter (fun p => decide (p.1 ≠ r))

/-- Look up a rowid's cluster label (`self.Zr[rowid]`). -/
def zrLookup (r : ℕ) : List (ℕ × ℕ) → Option ℕ
  | [] => none
  | p :: t => if p.1 = r then some p.2 else zrLookup r t

/-- Number of rows carrying label `k` in a partition. -/
def countLabel (l : List (ℕ × ℕ)) (k : ℕ) : ℕ :=
  (l.filter (fun p => decide (p.2 = k))).length

/-- `np.bincount`: occupancy counts indexed by label, length `max + 1`
(empty for an empty list). -/
def bincount (l : List ℕ) : List ℕ :=
  (List.range (l.foldr (fun a m => max (a + 1) m) 0)).map
    (fun k => (l.filter (fun z => decide (z = k))).length)

/-- Modelled from the spec: the CRP marginal probability of a partition
with `n` rows, occupancy counts `Nk` and concentration `alpha`
(`gu.logp_crp`), in linear space:
`alpha^K * prod_k (Nk_k - 1)! / prod_{i<n} (alpha + i)`. -/
def crpMarginal (n : ℕ) (Nk : List ℕ) (alpha : ℚ) : ℚ :=
  (alpha ^ Nk.length * ((Nk.map (fun c => (Nat.factorial (c - 1) : ℚ))).prod))
    / ((List.range n).map (fun i => alpha + (i : ℚ))).prod

/-- The `View`: one CRP row partition plus a collection of component
models, translated from `src/src/mixtures/view.py`.  The dataset `x` is
column-major (`X[col][rowid]`, missing values as `none`); `Zr` is kept as
an association list sorted by rowid. -/
structure View where
  x : List (ℕ × List (Option ℚ))
  alphaGrid : List ℚ
  alpha : ℚ
  Zr : List (ℕ × ℕ)
  Nk : List ℕ
  dims : List Dim
deriving DecidableEq, Repr

namespace View

/-- `self.X[col][rowid]` (missing cell or column gives the sentinel). -/
def value (s : View) (col rowid : ℕ) : Option ℚ :=
  match (s.x.find? (fun p => decide (p.1 = col))) with
  | none => none
  | some p => p.2.getD rowid none

/-- `n_rows()`: length of the first column of the dataset. -/
def nRows (s : View) : ℕ :=
  match s.x with
  | [] => 0
  | c :: _ => c.2.length

/-- Modelled from the spec: the alpha grid `gu.log_linspace(1/n, n, 30)`
— 30 positive candidates spanning `[1/n, n]` (§4.3; the exact spacing is
a numerical choice immaterial to the claims, so the model uses linear
spacing of the numerators). -/
def mkAlphaGrid (n : ℕ) : List ℚ :=
  (List.range 30).map (fun (i : ℕ) => (1 + (i : ℚ) * ((n : ℚ) ^ 2 - 1) / 29) / (n : ℚ))

/-- The `View` constructor (view.py lines 33-78) for an explicitly given
partition: `Zr` is zipped with `range(n_rows)` into a map and `Nk` is its
bincount; dims start empty.  (The `alpha=None` / `Zr=None` branches draw
these from the grid / the CRP prior; the explicit form covers the states
they produce.) -/
def mk0 (x : List (ℕ × List (Option ℚ))) (zs : List ℕ) (alpha : ℚ) : View :=
  let n := match x with | [] => 0 | c :: _ => c.2.length
  { x := x
    alphaGrid := mkAlphaGrid n
    alpha := alpha
    Zr := (List.range n).zip zs
    Nk := bincount zs
    dims := [] }

/-- `_conditional_dims()`: ids of conditional dims in sorted order.
(`self.dims` is kept sorted by column id, so no re-sort is needed.) -/
def conditionalDims (s : View) : List ℕ :=
  (s.dims.filter (fun d => d.conditional)).map Dim.index

/-- `_unconditional_dims()`: ids of unconditional dims in sorted order. -/
def unconditionalDims (s : View) : List ℕ :=
  (s.dims.filter (fun d => !d.conditional)).map Dim.index

/-- `self.dims[col]` (a dummy empty dim for an unknown id — the source
would raise `KeyError`). -/
def dimAt (s : View) (col : ℕ) : Dim :=
  (s.dims.find? (fun d => decide (d.index = col))).getD ⟨col, [], false, 1, []⟩

/-- `incorporate` (view.py lines 124-148) with the cluster label already
extracted from the query (`k = query.get(-1, 0)`; an explicit label must
satisfy `0 <= k <= len(self.Nk)`, label `K` creating a new cluster): grow
`Nk` if `k` is fresh, bump the occupancy, record the row's label, and
incorporate the row's value into every dim at cluster `k`.  The final
`self.transition_rows(rows=transition)` runs on an empty row list in
every completing call — `transition` is `[rowid]` only when the query
carries an explicit `None` label, and that path crashes at
`self.Nk[None]` before finishing — so it is omitted here (see
`incorporateQuery` for the label-extraction semantics). -/
def incorporate (s : View) (rowid : ℕ) (k : ℕ) : View :=
  let nk0 := if s.Nk.length = k then s.Nk ++ [0] else s.Nk
  { s with
    Nk := updNth nk0 k (· + 1)
    Zr := insertZr rowid k s.Zr
    dims := s.dims.map (fun d => d.incorporate (s.value d.index rowid) k) }

/-- `query.get(-1, 0)` of `incorporate` (view.py line 137): the cluster
label defaults to `0` when the query carries none. -/
def incorporateQuery (s : View) (rowid : ℕ) (kq : Option ℕ) : View :=
  s.incorporate rowid (kq.getD 0)

/-- `unincorporate` (view.py lines 150-164): remove the row from every
dim's statistics, decrement its cluster's occupancy, and if the cluster
became empty delete it — dropping its record from every dim and shifting
every label above it down by one (`adjust`), keeping labels contiguous. -/
def unincorporate (s : View) (rowid : ℕ) : View :=
  let k := (zrLookup rowid s.Zr).getD 0
  let dims1 := s.dims.map (fun d => d.unincorporate (s.value d.index rowid) k)
  let nk1 := updNth s.Nk k (· - 1)
  if nk1.getD k 1 = 0 then
    { s with
      dims := dims1.map (fun d => d.dropCluster k)
      Nk := nk1.eraseIdx k
      Zr := (eraseZr rowid s.Zr).map (fun p => (p.1, if k < p.2 then p.2 - 1 else p.2)) }
  else
    { s with dims := dims1, Nk := nk1, Zr := eraseZr rowid s.Zr }

/-- `logpdf_score()` (view.py lines 226-230), in linear space: the CRP
marginal probability of the current partition under the current `alpha`,
times the product (log: sum) over attached columns of each component
model's total marginal likelihood. -/
def logpdfScore (s : View) : ℚ :=
  crpMarginal s.Zr.length s.Nk s.alpha * (s.dims.map Dim.score).prod

end View

/-- Insert a `(rowid, label)` pair into a list sorted by label, before
the first pair with a strictly greater label (so a right fold gives a
stable sort). -/
def insLabel (p : ℕ × ℕ) : List (ℕ × ℕ) → List (ℕ × ℕ)
  | [] => [p]
  | q :: t => if p.2 ≤ q.2 then p :: q :: t else q :: insLabel p t

/-- `sorted(self.Zr.items(), key=lambda e: e[1])` (view.py line 99): the
partition's `(rowid, label)` pairs sorted stably by cluster label. -/
def sortByLabel : List (ℕ × ℕ) → List (ℕ × ℕ)
  | [] => []
  | p :: t => insLabel p (sortByLabel t)

namespace View

/-- `self.Zr[rowid]` with default 0 (the source would raise `KeyError`
for an absent rowid; callers establish presence). -/
def zrOf (s : View) (rowid : ℕ) : ℕ :=
  (zrLookup rowid s.Zr).getD 0

/-- `_get_evidence(rowid, dim, k)` (view.py lines 438-442): the values of
the dim's input (root) columns at this row (missing cells contributing a
sentinel, taken as 0 in the value list), the cluster id being carried
separately. -/
def getEvidence (s : View) (rowid : ℕ) (d : Dim) : List ℚ :=
  d.inputs.map (fun i => (s.value i rowid).getD 0)

/-- `_logpdf_cell_gibbs(rowid, dim, k)` (view.py lines 403-412): the
likelihood of the row's value in this column under cluster `k`; when `k`
is the row's current cluster, the row is first unincorporated from the
dim, the likelihood evaluated, and the row re-incorporated.  Returns the
likelihood together with the dim as the source leaves it (the temporary
mutation undone). -/
def logpdfCellGibbs (s : View) (rowid : ℕ) (d : Dim) (k : ℕ) : ℚ × Dim :=
  let x := s.value d.index rowid
  let ev := s.getEvidence rowid d
  if s.zrOf rowid = k then
    let d1 := d.unincorporate x (s.zrOf rowid)
    (d1.like x ev k, d1.incorporate x (s.zrOf rowid))
  else
    (d.like x ev k, d)

/-- `_logpdf_row_gibbs(rowid, m)` with `m = 1` (view.py lines 395-401):
for each candidate cluster — the `len(Nk)` existing ones plus `m_aux`
auxiliary ones, where `m_aux = m - 1` if the row is a singleton in its
cluster and `m` otherwise — the product (log: sum) over all attached
dims of the cell likelihood with the row's own contribution removed. -/
def logpdfRowGibbs (s : View) (rowid : ℕ) : List ℚ :=
  let mAux := if s.Nk.getD (s.zrOf rowid) 0 = 1 then 0 else 1
  (List.range (s.Nk.length + mAux)).map
    (fun k => (s.dims.map (fun d => (s.logpdfCellGibbs rowid d k).1)).prod)

/-- Modelled from the spec: `gu.logp_crp_gibbs(Nk, Zr, rowid, alpha, 1)`
— the CRP predictive weights for a Gibbs move of `rowid` with one
auxiliary table (`§4.1 predictive_log_weights`), in linear space and with
the same candidate-vector length the source asserts against
`_logpdf_row_gibbs` (`assert len(logp_data) == len(logp_crp)`): the
row's membership is removed from its own cluster first, so its current
cluster weighs `Nk[z] - 1` — or `alpha` when it was a singleton, its own
cluster then serving as the auxiliary table — other existing clusters
weigh `Nk[k]`, and the auxiliary table (present only in the non-singleton
case) weighs `alpha`. -/
def crpGibbs (s : View) (rowid : ℕ) : List ℚ :=
  let z := s.zrOf rowid
  let single := s.Nk.getD z 0 = 1
  let mAux := if single then 0 else 1
  (List.range (s.Nk.length + mAux)).map
    (fun k =>
      if k = z then (if single then s.alpha else ((s.Nk.getD z 0 : ℚ) - 1))
      else if k < s.Nk.length then (s.Nk.getD k 0 : ℚ)
      else s.alpha)

/-- The per-candidate weights of the row Gibbs kernel:
`np.add(logp_data, logp_crp)` (view.py line 386), in linear space. -/
def gibbsWeights (s : View) (rowid : ℕ) : List ℚ :=
  List.zipWith (· * ·) (s.logpdfRowGibbs rowid) (s.crpGibbs rowid)

/-- `_transition_row(rowid)` (view.py lines 381-393): compute the Gibbs
weights, draw a candidate label, and if it differs from the row's current
label unincorporate the row and re-incorporate it with the drawn label
(the query rebuilt from the dataset `X`).  The trailing
`_check_partitions()` is a defensive assertion with no state effect. -/
def transitionRow (s : View) (rowid : ℕ) (seed : ℕ) : View :=
  let zb := pflip (s.gibbsWeights rowid) seed
  if zb = s.zrOf rowid then s
  else (s.unincorporate rowid).incorporate rowid zb

/-- `transition_rows(rows)` (view.py lines 216-221): one Gibbs step per
listed row, each consuming one oracle value. -/
def transitionRows (s : View) (rows : List ℕ) (rng : Rng) : View × Rng :=
  rows.foldl
    (fun (p : View × Rng) rowid =>
      let (seed, rng') := rngNext p.2
      (p.1.transitionRow rowid seed, rng'))
    (s, rng)

/-- `transition_alpha()` (view.py lines 201-206): score every grid value
by the CRP marginal of the current partition and draw the new `alpha` by
categorical sampling over the grid (`gu.logp_crp_unorm` modelled from the
spec as the unnormalised CRP marginal). -/
def transitionAlpha (s : View) (seed : ℕ) : View :=
  let logps := s.alphaGrid.map (fun a => crpMarginal s.Zr.length s.Nk a)
  { s with alpha := s.alphaGrid.getD (pflip logps seed) 1 }

/-- One step of the `transition_column_hypers` loop: transition the next
dim's hyperparameters with the next oracle value. -/
def hypersStep (p : List Dim × Rng) (d : Dim) : List Dim × Rng :=
  let (seed, rng') := rngNext p.2
  (p.1 ++ [d.transitionHypers seed], rng')

/-- `transition_column_hypers()` (view.py lines 208-214): delegate to
every dim's hyperparameter transition, each consuming one oracle value. -/
def transitionColumnHypers (s : View) (rng : Rng) : View × Rng :=
  let (dims', rng') := s.dims.foldl hypersStep ([], rng)
  ({ s with dims := dims' }, rng')

/-- `_bulk_incorporate(dim)` (view.py lines 93-108): rebuild the dim's
cluster statistics from scratch by incorporating every observed row in
order of cluster label (ties in rowid order — the partition sorted
stably by label), then truncate to `K = max(Zr.values()) + 1` records if
longer (the source then asserts `len(dim.clusters) == K`), and run one
hyperparameter transition (`dim.transition_params()`) to settle the new
column. -/
def bulkIncorporate (s : View) (d : Dim) (seed : ℕ) : Dim :=
  let sortedRows := sortByLabel s.Zr
  let d0 : Dim := { d with clusters := [] }
  let d1 := sortedRows.foldl
    (fun (acc : Dim) p => acc.incorporate (s.value d.index p.1) p.2) d0
  let kMax := (s.Zr.map Prod.snd).foldr (fun a m => max (a + 1) m) 0
  let d2 := { d1 with clusters := d1.clusters.take kMax }
  d2.transitionHypers seed

/-- Upsert of a dim into `self.dims` (dict assignment
`self.dims[dim.index] = dim`), kept sorted by column id. -/
def dimsUpsert (d : Dim) : List Dim → List Dim
  | [] => [d]
  | e :: t =>
    if d.index < e.index then d :: e :: t
    else if d.index = e.index then d :: t
    else e :: dimsUpsert d t

/-- `_prepare_incorporate(cctype)` (view.py lines 110-117), reduced to
its validation: a conditional column is rejected — with
`ValueError('Cannot incorporate single conditional dim.')` — exactly
when the view has no attached columns at all (`len(self.dims) == 0`). -/
def prepareIncorporateOk (s : View) (conditional : Bool) : Bool :=
  !(conditional && s.dims.isEmpty)

/-- `incorporate_dim(dim, reassign)` (view.py lines 83-91): with
`reassign=True`, validate the conditional-ordering precondition, rebuild
the dim's statistics against the current partition (`_bulk_incorporate`),
and attach it; with `reassign=False`, attach the caller's dim as-is (its
partition is assumed to already match `self.Zr`). -/
def incorporateDim (s : View) (d : Dim) (reassign : Bool) (seed : ℕ) :
    Except String View :=
  if reassign then
    if s.prepareIncorporateOk d.conditional then
      Except.ok { s with dims := dimsUpsert (s.bulkIncorporate d seed) s.dims }
    else
      Except.error "Cannot incorporate single conditional dim."
  else
    Except.ok { s with dims := dimsUpsert d s.dims }

/-- `unincorporate_dim(dim)` (view.py lines 119-122):
`del self.dims[dim.index]`. -/
def unincorporateDim (s : View) (col : ℕ) : View :=
  { s with dims := s.dims.filter (fun d => decide (d.index ≠ col)) }

end View

/-- `logmeanexp(ws)` in linear space: the mean of the weights. -/
def meanQ (ws : List ℚ) : ℚ := ws.sum / (ws.length : ℚ)

/-- `gu.log_normalize(ws)` in linear space: divide by the total. -/
def normalizeL (ws : List ℚ) : List ℚ := ws.map (· / ws.sum)

/-- Insertion sort of `(col, val)` pairs by column id (`sorted(...)` on
pairs, stable). -/
def sortPairs : List (ℕ × ℚ) → List (ℕ × ℚ)
  | [] => []
  | p :: t => go p (sortPairs t)
where
  go (p : ℕ × ℚ) : List (ℕ × ℚ) → List (ℕ × ℚ)
    | [] => [p]
    | q :: t => if p.1 ≤ q.1 then p :: q :: t else q :: go p t

namespace View

/-- `no_leafs(query, evidence)` (view.py lines 297-302): the query
columns (already reduced to ids) and the evidence columns all lie among
the unconditional (root) columns. -/
def noLeafs (s : View) (qcols : List ℕ) (evidence : List (ℕ × ℚ)) : Bool :=
  evidence.all (fun e => decide (e.1 ∈ s.unconditionalDims)) &&
    qcols.all (fun q => decide (q ∈ s.unconditionalDims))

/-- `_logpdf_unconditional(query, k)` (view.py lines 368-370): the
product (log: sum) over the queried root columns of the value's
likelihood under cluster `k`. -/
def logpdfUncondP (s : View) (query : List (ℕ × ℚ)) (k : ℕ) : ℚ :=
  (query.map (fun e => (s.dimAt e.1).like (some e.2) [] k)).prod

/-- `_logpdf_conditional(query, evidence, k)` (view.py lines 372-376):
the product over the queried leaf columns of the value's likelihood
under cluster `k` given the root values. -/
def logpdfCondP (s : View) (query : List (ℕ × ℚ)) (evRoots : List (ℕ × ℚ)) (k : ℕ) : ℚ :=
  (query.map (fun e => (s.dimAt e.1).like (some e.2) (evRoots.map Prod.snd) k)).prod

/-- One row of `_simulate_unconditional`: one draw of each listed root
column from cluster `k`. -/
def simulateUncondOne (s : View) (cols : List ℕ) (k : ℕ) (rng : Rng) : List ℚ × Rng :=
  cols.foldl
    (fun (p : List ℚ × Rng) c =>
      let (seed, rng') := rngNext p.2
      (p.1 ++ [(s.dimAt c).simulateVal [] k seed], rng'))
    ([], rng)

/-- `_simulate_unconditional(query, k, N)` (view.py lines 355-359):
`N` draws of the listed root columns from cluster `k`. -/
def simulateUncond (s : View) (cols : List ℕ) (k N : ℕ) (rng : Rng) :
    List (List ℚ) × Rng :=
  (List.range N).foldl
    (fun (p : List (List ℚ) × Rng) _ =>
      let (draw, rng') := s.simulateUncondOne cols k p.2
      (p.1 ++ [draw], rng'))
    ([], rng)

/-- `_simulate_conditional(query, evidence, k)` (view.py lines 361-366):
one draw of each listed leaf column from cluster `k` given the root
values. -/
def simulateCondOne (s : View) (cols : List ℕ) (evRoots : List (ℕ × ℚ)) (k : ℕ)
    (rng : Rng) : List ℚ × Rng :=
  cols.foldl
    (fun (p : List ℚ × Rng) c =>
      let (seed, rng') := rngNext p.2
      (p.1 ++ [(s.dimAt c).simulateVal (evRoots.map Prod.snd) k seed], rng'))
    ([], rng)

/-- `_weighted_samples(evidence, k, N)` (view.py lines 328-353): draw `N`
proposal rows from cluster `k` — simulating the missing root columns,
then every leaf column given the (partly simulated) roots — and weight
each draw by the likelihood of the evidence under it: the root-evidence
likelihood times the leaf-evidence likelihood given the draw's roots.
Note the source's `lfs_obs = [e[0] for e in ev if e in lfs]` tests a
`(col, val)` pair for membership in a list of ids, which never holds, so
`lfs_obs` is always empty and every leaf column is simulated (even those
already bound by the evidence). -/
def weightedSamples (s : View) (evidence : List (ℕ × ℚ)) (k N : ℕ) (rng : Rng) :
    (List (List ℚ) × List ℚ) × Rng :=
  let ev := sortPairs evidence
  let rts := s.unconditionalDims
  let lfs := s.conditionalDims
  let evRts := ev.filter (fun e => decide (e.1 ∈ rts))
  let evLfs := ev.filter (fun e => decide (e.1 ∈ lfs))
  let rtsObs := evRts.map Prod.fst
  let rtsMis := rts.filter (fun r => decide (r ∉ rtsObs))
  let (rtsSim, rng1) := s.simulateUncond rtsMis k N rng
  let rtsAll := rtsSim.map (fun r => evRts ++ rtsMis.zip r)
  let lfsMis := lfs
  let (lfsSim, rng2) := rtsAll.foldl
    (fun (p : List (List ℚ) × Rng) r =>
      let (draw, rng') := s.simulateCondOne lfsMis r k p.2
      (p.1 ++ [draw], rng'))
    ([], rng1)
  let lfsAll := lfsSim.map (fun l => evLfs ++ lfsMis.zip l)
  let weights := rtsAll.map (fun r => s.logpdfUncondP evRts k * s.logpdfCondP evLfs r k)
  let samples := (rtsAll.zip lfsAll).map (fun p => (sortPairs (p.1 ++ p.2)).map Prod.snd)
  ((samples, weights), rng2)

/-- `_logpdf_joint(query, evidence, k)` (view.py lines 312-322): the
root-only case is computed exactly; otherwise the density is estimated by
self-normalised importance sampling with `ACCURACY = 20` proposals: the
mean (log: log-mean-exp) of the weights for evidence-plus-query divided
by (log: minus) the mean of the weights for the evidence alone (`1`,
log `0.`, when there is no evidence). -/
def logpdfJoint (s : View) (query evidence : List (ℕ × ℚ)) (k : ℕ) (rng : Rng) :
    ℚ × Rng :=
  if s.noLeafs (query.map Prod.fst) evidence then (s.logpdfUncondP query k, rng)
  else
    let ACCURACY := 20
    let wEq := s.weightedSamples (evidence ++ query) k ACCURACY rng
    let pE :=
      if evidence.isEmpty then ((1 : ℚ), wEq.2)
      else
        let wE := s.weightedSamples evidence k ACCURACY wEq.2
        (meanQ wE.1.2, wE.2)
    (meanQ wEq.1.2 / pE.1, pE.2)

/-- The per-candidate-cluster joint probabilities
`[_logpdf_joint(query, evidence, k) for k in range(len(Nk)+1)]`,
threading the oracle. -/
def jointProbs (s : View) (query evidence : List (ℕ × ℚ)) (rng : Rng) :
    List ℚ × Rng :=
  (List.range (s.Nk.length + 1)).foldl
    (fun (p : List ℚ × Rng) k =>
      let r := s.logpdfJoint query evidence k p.2
      (p.1 ++ [r.1], r.2))
    ([], rng)

/-- Modelled from the spec: `gu.logp_crp_fresh(len(Zr), Nk, alpha)` —
the CRP predictive weights of a fresh row over the existing clusters
plus one new cluster (`§4.1`), in linear space: `Nk[k] / (n + alpha)`
for an existing cluster and `alpha / (n + alpha)` for the new one. -/
def crpFresh (s : View) : List ℚ :=
  (s.Nk.map (fun c => (c : ℚ) / ((s.Zr.length : ℚ) + s.alpha))) ++
    [s.alpha / ((s.Zr.length : ℚ) + s.alpha)]

/-- `_logpdf_hypothetical(query, evidence)` (view.py lines 245-260):
compute the evidence likelihood under every existing cluster plus the
synthetic new one; raise `ValueError('Inf evidence!')` when every
candidate gives `-infinity` (here: probability `0`); otherwise
log-normalise the CRP-prior-times-evidence weights into the posterior
over clusters and return the posterior-weighted sum (log: logsumexp) of
the per-cluster query probabilities.  The view is returned unchanged:
the source path performs no state write. -/
def logpdfHyp (s : View) (query evidence : List (ℕ × ℚ)) (rng : Rng) :
    Except String ℚ × View × Rng :=
  let ev := s.jointProbs evidence [] rng
  if ev.1.all (fun p => decide (p = 0)) then
    (Except.error "Inf evidence!", s, ev.2)
  else
    let lpCluster := normalizeL (List.zipWith (· * ·) s.crpFresh ev.1)
    let qv := s.jointProbs query evidence ev.2
    (Except.ok (List.zipWith (· * ·) lpCluster qv.1).sum, s, qv.2)

/-- `_importance_resample(query, samples, weights, N)` (view.py lines
324-326): draw `N` sample indices by categorical sampling on the weights
and read the queried values off the chosen samples.  `samples[i][q]`
indexes the value list positionally by the column id `q` — a source
quirk kept here (`(samples.getD i []).getD q 0`). -/
def importanceResample (_s : View) (qcols : List ℕ) (samples : List (List ℚ))
    (weights : List ℚ) (N : ℕ) (rng : Rng) : List (List ℚ) × Rng :=
  (List.range N).foldl
    (fun (p : List (List ℚ) × Rng) _ =>
      let (seed, rng') := rngNext p.2
      let i := pflip weights seed
      (p.1 ++ [qcols.map (fun q => (samples.getD i []).getD q 0)], rng'))
    ([], rng)

/-- `_simulate_joint(query, evidence, k, N)` (view.py lines 304-310):
root-only queries are simulated exactly; otherwise draw
`ACCURACY = N` (no leaf evidence) or `20 * N` weighted proposals and
importance-resample `N` of them. -/
def simulateJoint (s : View) (qcols : List ℕ) (evidence : List (ℕ × ℚ)) (k N : ℕ)
    (rng : Rng) : List (List ℚ) × Rng :=
  if s.noLeafs qcols evidence then s.simulateUncond qcols k N rng
  else
    let ACCURACY := if s.noLeafs (evidence.map Prod.fst) [] then N else 20 * N
    let ((samples, weights), rng1) := s.weightedSamples evidence k ACCURACY rng
    s.importanceResample qcols samples weights N rng1

/-- `_simulate_hypothetical(query, evidence, N)` (view.py lines 276-292):
same degenerate-evidence check as `_logpdf_hypothetical`; then draw `N`
cluster labels by categorical sampling on the (unnormalised)
prior-times-evidence weights, group them by label (`np.bincount`), and
simulate each label's batch jointly.  The view is returned unchanged:
the source path performs no state write. -/
def simulateHyp (s : View) (qcols : List ℕ) (evidence : List (ℕ × ℚ)) (N : ℕ)
    (rng : Rng) : Except String (List (List ℚ)) × View × Rng :=
  let ev := s.jointProbs evidence [] rng
  if ev.1.all (fun p => decide (p = 0)) then
    (Except.error "Inf evidence!", s, ev.2)
  else
    let lpCluster := List.zipWith (· * ·) s.crpFresh ev.1
    let ks := (List.range N).foldl
      (fun (p : List ℕ × Rng) _ =>
        let q := rngNext p.2
        (p.1 ++ [pflip lpCluster q.1], q.2))
      ([], ev.2)
    let counts := bincount ks.1
    let samples := (List.range counts.length).foldl
      (fun (p : List (List (List ℚ)) × Rng) k =>
        if counts.getD k 0 = 0 then p
        else
          let sk := s.simulateJoint qcols evidence k (counts.getD k 0) p.2
          (p.1 ++ [sk.1], sk.2))
      ([], ks.2)
    (Except.ok samples.1.flatten, s, samples.2)

end View

namespace View

/-- `_is_hypothetical(rowid)` (view.py lines 420-421):
`not (0 <= rowid < len(self.Zr))` — a range check against the number of
observed rows, not a membership test (with natural rowids the lower
bound is automatic). -/
def isHypothetical (s : View) (rowid : ℕ) : Bool :=
  !(rowid < s.Zr.length)

/-- `_populate_evidence(rowid, query, evidence)` (view.py lines 423-436):
for an observed row, extend the caller's evidence with the row's own
dataset values for every column that is neither queried nor already in
the evidence (missing cells contributing the sentinel, taken as 0). -/
def populateEvidence (s : View) (rowid : ℕ) (qcols : List ℕ)
    (evidence : List (ℕ × ℚ)) : List (ℕ × ℚ) :=
  let ecols := evidence.map Prod.fst
  let ucols := s.unconditionalDims
  let ccols := s.conditionalDims
  let uvals := ucols.map (fun i => (s.value i rowid).getD 0)
  let cvals := ccols.map (fun i => (s.value i rowid).getD 0)
  let qrts := qcols.filter (fun q => decide (q ∈ ucols))
  let qlfs := qcols.filter (fun q => decide (q ∈ ccols))
  let evC := (ucols.zip uvals).filter (fun e => decide (e.1 ∉ qrts))
  let evU := (ccols.zip cvals).filter (fun e => decide (e.1 ∉ qlfs))
  let evNew := (evC ++ evU).filter (fun e => decide (e.1 ∉ ecols))
  evNew ++ evidence

/-- `logpdf(rowid, query, evidence)` (view.py lines 235-243): a
hypothetical rowid is marginalised over clusters; an observed rowid's
assigned cluster is used directly (after populating the evidence with
the row's own values). -/
def logpdfQ (s : View) (rowid : ℕ) (query evidence : List (ℕ × ℚ)) (rng : Rng) :
    Except String ℚ × View × Rng :=
  if s.isHypothetical rowid then s.logpdfHyp query evidence rng
  else
    let ev := s.populateEvidence rowid (query.map Prod.fst) evidence
    let r := s.logpdfJoint query ev (s.zrOf rowid) rng
    (Except.ok r.1, s, r.2)

/-- `simulate(rowid, query, evidence, N)` (view.py lines 265-274): same
observed/hypothetical dispatch as `logpdf`. -/
def simulateQ (s : View) (rowid : ℕ) (qcols : List ℕ) (evidence : List (ℕ × ℚ))
    (N : ℕ) (rng : Rng) : Except String (List (List ℚ)) × View × Rng :=
  if s.isHypothetical rowid then s.simulateHyp qcols evidence N rng
  else
    let ev := s.populateEvidence rowid qcols evidence
    let r := s.simulateJoint qcols ev (s.zrOf rowid) N rng
    (Except.ok r.1, s, r.2)

/-- `_check_partitions()` (view.py lines 479-494), as a boolean: the
view's own defensive assertions — `alpha > 0`; the partition domain is
exactly `range(n_rows)`; `len(Zr) == sum(Nk) == n_rows`;
`max(Zr.values()) == len(Nk) - 1`; every dim has `len(Nk)` cluster
records, each holding `Nk[k]` minus the cluster's missing cells. -/
def checkPartitions (s : View) : Bool :=
  decide (0 < s.alpha) &&
  decide (s.Zr.map Prod.fst = List.range s.nRows) &&
  decide (s.Zr.length = s.Nk.sum) && decide (s.Nk.sum = s.nRows) &&
  decide ((s.Zr.map Prod.snd).foldr (fun a m => max (a + 1) m) 0 = s.Nk.length) &&
  s.dims.all (fun d =>
    decide (d.clusters.length = s.Nk.length) &&
    (List.range d.clusters.length).all (fun k =>
      decide ((d.clusters.getD k DimCluster.empty).n =
        s.Nk.getD k 0 -
          ((s.Zr.filter (fun p => decide (p.2 = k))).filter
            (fun p => decide (s.value d.index p.1 = none))).length)))

end View

/-! ## Basic list lemmas -/

theorem updNth_length {α : Type} (l : List α) (i : ℕ) (f : α → α) :
    (updNth l i f).length = l.length := by
  induction l generalizing i with
  | nil => rfl
  | cons a t ih =>
    cases i with
    | zero => rfl
    | succ j => simpa [updNth] using ih j

theorem updNth_getD_eq {α : Type} (l : List α) (i : ℕ) (f : α → α) (d : α)
    (h : i < l.length) : (updNth l i f).getD i d = f (l.getD i d) := by
  induction l generalizing i with
  | nil => simp at h
  | cons a t ih =>
    cases i with
    | zero => rfl
    | succ j =>
      simp only [updNth, List.getD_cons_succ]
      exact ih j (by simpa using h)

theorem updNth_getD_ne {α : Type} (l : List α) (i j : ℕ) (f : α → α) (d : α)
    (h : j ≠ i) : (updNth l i f).getD j d = l.getD j d := by
  induction l generalizing i j with
  | nil => rfl
  | cons a t ih =>
    cases i with
    | zero =>
      cases j with
      | zero => exact absurd rfl h
      | succ m => rfl
    | succ n =>
      cases j with
      | zero => rfl
      | succ m =>
        simp only [updNth, List.getD_cons_succ]
        exact ih n m (by omega)

theorem updNth_oob {α : Type} (l : List α) (i : ℕ) (f : α → α)
    (h : l.length ≤ i) : updNth l i f = l := by
  induction l generalizing i with
  | nil => rfl
  | cons a t ih =>
    cases i with
    | zero => simp at h
    | succ j => simp [updNth, ih j (by simpa using h)]

theorem updNth_updNth {α : Type} (l : List α) (i : ℕ) (f g : α → α) :
    updNth (updNth l i g) i f = updNth l i (fun a => f (g a)) := by
  induction l generalizing i with
  | nil => rfl
  | cons a t ih =>
    cases i with
    | zero => rfl
    | succ j => simp [updNth, ih j]

theorem updNth_eq_self {α : Type} (l : List α) (i : ℕ) (f : α → α) (d : α)
    (h : f (l.getD i d) = l.getD i d) : updNth l i f = l := by
  induction l generalizing i with
  | nil => rfl
  | cons a t ih =>
    cases i with
    | zero => simpa [updNth, List.getD] using h
    | succ j =>
      simp only [List.getD_cons_succ] at h
      simp [updNth, ih j h]

theorem getD_map_range {α : Type} (n k : ℕ) (f : ℕ → α) (d : α) (h : k < n) :
    (((List.range n).map f).getD k d) = f k := by
  rw [List.getD_eq_getElem?_getD]
  simp [List.getElem?_map, List.getElem?_range h]

theorem eraseIdx_getD_lt {α : Type} (l : List α) (k j : ℕ) (d : α) (h : j < k) :
    (l.eraseIdx k).getD j d = l.getD j d := by
  induction l generalizing k j with
  | nil => rfl
  | cons a t ih =>
    cases k with
    | zero => omega
    | succ m =>
      cases j with
      | zero => rfl
      | succ i =>
        simp only [List.eraseIdx, List.getD_cons_succ]
        exact ih m i (by omega)

theorem eraseIdx_getD_ge {α : Type} (l : List α) (k j : ℕ) (d : α) (h : k ≤ j) :
    (l.eraseIdx k).getD j d = l.getD (j + 1) d := by
  induction l generalizing k j with
  | nil => rfl
  | cons a t ih =>
    cases k with
    | zero => rfl
    | succ m =>
      cases j with
      | zero => omega
      | succ i =>
        simp only [List.eraseIdx, List.getD_cons_succ]
        exact ih m i (by omega)

/-! ## Partition association-list lemmas -/

/-- Strict sortedness of the partition map's keys. -/
def ZrSorted (l : List (ℕ × ℕ)) : Prop :=
  List.Pairwise (fun p q : ℕ × ℕ => p.1 < q.1) l

theorem zrLookup_eq_none_iff (r : ℕ) (l : List (ℕ × ℕ)) :
    zrLookup r l = none ↔ r ∉ l.map Prod.fst := by
  induction l with
  | nil => simp [zrLookup]
  | cons p t ih =>
    obtain ⟨a, b⟩ := p
    simp only [zrLookup, List.map_cons, List.mem_cons]
    by_cases h : a = r
    · simp [h]
    · simp only [if_neg h, ih]
      constructor
      · intro hh
        push_neg
        exact ⟨fun he => h he.symm, hh⟩
      · intro hh
        push_neg at hh
        exact hh.2

theorem zrLookup_mem (r k : ℕ) (l : List (ℕ × ℕ)) (h : zrLookup r l = some k) :
    (r, k) ∈ l := by
  induction l with
  | nil => simp [zrLookup] at h
  | cons p t ih =>
    obtain ⟨a, b⟩ := p
    by_cases hp : a = r
    · simp only [zrLookup, if_pos hp] at h
      injection h with h2
      subst hp
      subst h2
      exact List.mem_cons_self _ _
    · simp only [zrLookup, if_neg hp] at h
      exact List.mem_cons_of_mem _ (ih h)

theorem zrLookup_isSome_of_mem (p : ℕ × ℕ) (l : List (ℕ × ℕ)) (h : p ∈ l) :
    (zrLookup p.1 l).isSome := by
  induction l with
  | nil => simp at h
  | cons q t ih =>
    obtain ⟨a, b⟩ := q
    rcases List.mem_cons.1 h with h | h
    · subst h
      simp [zrLookup]
    · by_cases hq : a = p.1
      · simp [zrLookup, hq]
      · simpa [zrLookup, hq] using ih h

theorem countLabel_nil (k : ℕ) : countLabel [] k = 0 := rfl

theorem countLabel_cons (p : ℕ × ℕ) (t : List (ℕ × ℕ)) (k : ℕ) :
    countLabel (p :: t) k = countLabel t k + (if p.2 = k then 1 else 0) := by
  by_cases h : p.2 = k <;> simp [countLabel, List.filter, h, Nat.add_comm]

theorem countLabel_zero_of_forall (l : List (ℕ × ℕ)) (k : ℕ)
    (h : ∀ p ∈ l, p.2 ≠ k) : countLabel l k = 0 := by
  induction l with
  | nil => rfl
  | cons p t ih =>
    rw [countLabel_cons, if_neg (h p (List.mem_cons_self p t)),
      ih (fun q hq => h q (List.mem_cons_of_mem p hq))]

theorem countLabel_pos_iff (l : List (ℕ × ℕ)) (k : ℕ) :
    0 < countLabel l k ↔ ∃ p ∈ l, p.2 = k := by
  constructor
  · intro h
    by_contra hc
    push_neg at hc
    rw [countLabel_zero_of_forall l k hc] at h
    exact absurd h (by omega)
  · rintro ⟨p, hp, hk⟩
    induction l with
    | nil => simp at hp
    | cons q t ih =>
      rw [countLabel_cons]
      rcases List.mem_cons.1 hp with h | h
      · subst h
        rw [if_pos hk]
        omega
      · have := ih h
        omega

/-- Inserting a fresh rowid adds exactly one pair with its label. -/
theorem countLabel_insertZr (r k : ℕ) (l : List (ℕ × ℕ))
    (hfresh : zrLookup r l = none) (j : ℕ) :
    countLabel (insertZr r k l) j = countLabel l j + (if k = j then 1 else 0) := by
  induction l with
  | nil => simp [insertZr, countLabel_cons, countLabel_nil]
  | cons p t ih =>
    obtain ⟨a, b⟩ := p
    have hne : ¬ a = r := by
      intro hh
      simp [zrLookup, hh] at hfresh
    have hfresh' : zrLookup r t = none := by
      simpa [zrLookup, hne] using hfresh
    by_cases h1 : r < a
    · rw [insertZr, if_pos h1, countLabel_cons]
    · have h2 : ¬ r = a := fun hh => hne hh.symm
      rw [insertZr, if_neg h1, if_neg h2, countLabel_cons, ih hfresh', countLabel_cons]
      split_ifs <;> omega

theorem mem_insertZr (r k : ℕ) (l : List (ℕ × ℕ)) (q : ℕ × ℕ)
    (h : q ∈ insertZr r k l) : q = (r, k) ∨ q ∈ l := by
  induction l with
  | nil =>
    simp only [insertZr] at h
    exact Or.inl (by simpa using h)
  | cons p t ih =>
    by_cases h1 : r < p.1
    · rw [insertZr, if_pos h1] at h
      rcases List.mem_cons.1 h with h | h
      · exact Or.inl h
      · exact Or.inr h
    · by_cases h2 : r = p.1
      · rw [insertZr, if_neg h1, if_pos h2] at h
        rcases List.mem_cons.1 h with h | h
        · exact Or.inl h
        · exact Or.inr (List.mem_cons_of_mem _ h)
      · rw [insertZr, if_neg h1, if_neg h2] at h
        rcases List.mem_cons.1 h with h | h
        · exact Or.inr (by simp [h])
        · rcases ih h with h | h
          · exact Or.inl h
          · exact Or.inr (List.mem_cons_of_mem _ h)

theorem sorted_insertZr (r k : ℕ) (l : List (ℕ × ℕ)) (h : ZrSorted l) :
    ZrSorted (insertZr r k l) := by
  induction l with
  | nil => simp [insertZr, ZrSorted]
  | cons p t ih =>
    have hp : ∀ q ∈ t, p.1 < q.1 := (List.pairwise_cons.1 h).1
    have ht : ZrSorted t := (List.pairwise_cons.1 h).2
    by_cases h1 : r < p.1
    · rw [ZrSorted, insertZr, if_pos h1]
      refine List.Pairwise.cons ?_ h
      intro q hq
      rcases List.mem_cons.1 hq with hq | hq
      · simpa [hq] using h1
      · exact lt_trans h1 (hp q hq)
    · by_cases h2 : r = p.1
      · rw [ZrSorted, insertZr, if_neg h1, if_pos h2]
        refine List.Pairwise.cons ?_ ht
        intro q hq
        simpa [h2] using hp q hq
      · rw [ZrSorted, insertZr, if_neg h1, if_neg h2]
        refine List.Pairwise.cons ?_ (ih ht)
        intro q hq
        rcases mem_insertZr r k t q hq with hq | hq
        · simp only [hq]
          omega
        · exact hp q hq

theorem sorted_eraseZr (r : ℕ) (l : List (ℕ × ℕ)) (h : ZrSorted l) :
    ZrSorted (eraseZr r l) :=
  List.Pairwise.sublist (List.filter_sublist l) h

theorem mem_eraseZr (r : ℕ) (l : List (ℕ × ℕ)) (q : ℕ × ℕ)
    (h : q ∈ eraseZr r l) : q ∈ l :=
  List.mem_of_mem_filter h

/-- Among sorted pairs there is at most one entry per rowid, so deleting
a rowid removes exactly its pair from every label count. -/
theorem countLabel_eraseZr (r k : ℕ) (l : List (ℕ × ℕ)) (hs : ZrSorted l)
    (h : zrLookup r l = some k) (j : ℕ) :
    countLabel l j = countLabel (eraseZr r l) j + (if k = j then 1 else 0) := by
  induction l with
  | nil => simp [zrLookup] at h
  | cons p t ih =>
    obtain ⟨a, b⟩ := p
    have hp : ∀ q ∈ t, a < q.1 := by
      intro q hq
      exact (List.pairwise_cons.1 hs).1 q hq
    have ht : ZrSorted t := (List.pairwise_cons.1 hs).2
    by_cases hr : a = r
    · simp only [zrLookup, if_pos hr] at h
      injection h with h2
      have hrt : zrLookup r t = none := by
        rw [zrLookup_eq_none_iff]
        intro hmem
        rcases List.mem_map.1 hmem with ⟨q, hq, hq1⟩
        have := hp q hq
        omega
      have herase : eraseZr r t = t := by
        apply List.filter_eq_self.2
        intro q hq
        have := hp q hq
        simp only [decide_eq_true_eq]
        omega
      simp only [eraseZr, List.filter]
      have : (decide ((a, b).1 ≠ r)) = false := by simp [hr]
      rw [this]
      rw [countLabel_cons, ← eraseZr, herase]
      simp [h2]
    · have h' : zrLookup r t = some k := by
        simpa [zrLookup, hr] using h
      simp only [eraseZr, List.filter]
      have : (decide ((a, b).1 ≠ r)) = true := by simpa using hr
      rw [this]
      rw [countLabel_cons, countLabel_cons, ← eraseZr, ih ht h']
      omega

theorem length_eraseZr (r k : ℕ) (l : List (ℕ × ℕ)) (hs : ZrSorted l)
    (h : zrLookup r l = some k) :
    l.length = (eraseZr r l).length + 1 := by
  induction l with
  | nil => simp [zrLookup] at h
  | cons p t ih =>
    obtain ⟨a, b⟩ := p
    have hp : ∀ q ∈ t, a < q.1 := fun q hq => (List.pairwise_cons.1 hs).1 q hq
    have ht : ZrSorted t := (List.pairwise_cons.1 hs).2
    by_cases hr : a = r
    · have herase : eraseZr r t = t := by
        apply List.filter_eq_self.2
        intro q hq
        have := hp q hq
        simp only [decide_eq_true_eq]
        omega
      simp only [eraseZr, List.filter]
      have hd : (decide ((a, b).1 ≠ r)) = false := by simp [hr]
      rw [hd, ← eraseZr, herase]
      simp
    · have h' : zrLookup r t = some k := by
        simpa [zrLookup, hr] using h
      simp only [eraseZr, List.filter]
      have hd : (decide ((a, b).1 ≠ r)) = true := by simpa using hr
      rw [hd, ← eraseZr]
      simpa using ih ht h'

theorem zrLookup_eraseZr_self (r : ℕ) (l : List (ℕ × ℕ)) :
    zrLookup r (eraseZr r l) = none := by
  rw [zrLookup_eq_none_iff]
  intro hmem
  rcases List.mem_map.1 hmem with ⟨q, hq, hq1⟩
  have := List.of_mem_filter hq
  simp only [decide_eq_true_eq] at this
  exact this hq1

/-- Deleting a present rowid and re-inserting it with its original label
restores the sorted partition map exactly. -/
theorem insertZr_eraseZr (r k : ℕ) (l : List (ℕ × ℕ)) (hs : ZrSorted l)
    (h : zrLookup r l = some k) :
    insertZr r k (eraseZr r l) = l := by
  induction l with
  | nil => simp [zrLookup] at h
  | cons p t ih =>
    obtain ⟨a, b⟩ := p
    have hp : ∀ q ∈ t, a < q.1 := fun q hq => (List.pairwise_cons.1 hs).1 q hq
    have ht : ZrSorted t := (List.pairwise_cons.1 hs).2
    by_cases hr : a = r
    · simp only [zrLookup, if_pos hr] at h
      injection h with h2
      have herase : eraseZr r t = t := by
        apply List.filter_eq_self.2
        intro q hq
        have := hp q hq
        simp only [decide_eq_true_eq]
        omega
      simp only [eraseZr, List.filter]
      have hd : (decide ((a, b).1 ≠ r)) = false := by simp [hr]
      rw [hd, ← eraseZr, herase]
      subst hr
      subst h2
      cases t with
      | nil => rfl
      | cons q u =>
        have haq : a < q.1 := hp q (List.mem_cons_self q u)
        rw [insertZr, if_pos haq]
    · have h' : zrLookup r t = some k := by
        simpa [zrLookup, hr] using h
      have har : a < r := by
        rcases List.mem_map.1
          (show r ∈ t.map Prod.fst by
            by_contra hc
            rw [← zrLookup_eq_none_iff] at hc
            rw [hc] at h'
            cases h') with ⟨q, hq, hq1⟩
        have := hp q hq
        omega
      simp only [eraseZr, List.filter]
      have hd : (decide ((a, b).1 ≠ r)) = true := by simpa using hr
      rw [hd, ← eraseZr]
      rw [insertZr, if_neg (by omega), if_neg (by omega), ih ht h']

/-- The label-compaction map of `unincorporate`. -/
def relabel (k : ℕ) (l : List (ℕ × ℕ)) : List (ℕ × ℕ) :=
  l.map (fun p => (p.1, if k < p.2 then p.2 - 1 else p.2))

theorem sorted_relabel (k : ℕ) (l : List (ℕ × ℕ)) (h : ZrSorted l) :
    ZrSorted (relabel k l) := by
  rw [relabel, ZrSorted, List.pairwise_map]
  exact h

theorem keys_relabel (k : ℕ) (l : List (ℕ × ℕ)) :
    (relabel k l).map Prod.fst = l.map Prod.fst := by
  simp [relabel]

/-- After the cluster with label `k` has emptied, compaction renumbers
label counts: position `j` collects the old count at `j` below `k` and
at `j + 1` from `k` up. -/
theorem countLabel_relabel (k : ℕ) (l : List (ℕ × ℕ))
    (h : countLabel l k = 0) (j : ℕ) :
    countLabel (relabel k l) j =
      if j < k then countLabel l j else countLabel l (j + 1) := by
  induction l with
  | nil => simp [relabel, countLabel_nil]
  | cons p t ih =>
    obtain ⟨a, b⟩ := p
    rw [countLabel_cons] at h
    have hb : b ≠ k := by
      intro hh
      rw [if_pos hh] at h
      omega
    have ht : countLabel t k = 0 := by omega
    show countLabel ((a, if k < b then b - 1 else b) :: relabel k t) j = _
    rw [countLabel_cons, ih ht, countLabel_cons, countLabel_cons]
    simp only [show ((a, if k < b then b - 1 else b)).2 = (if k < b then b - 1 else b) from rfl,
      show ((a, b)).2 = b from rfl]
    split_ifs <;> omega

/-! ## Sum and bincount lemmas -/

theorem sum_eq_sum_getD (l : List ℕ) :
    l.sum = ∑ k ∈ Finset.range l.length, l.getD k 0 := by
  induction l with
  | nil => simp
  | cons a t ih =>
    rw [List.sum_cons, List.length_cons, Finset.sum_range_succ', ih]
    simp [List.getD_cons_succ, List.getD_cons_zero, Nat.add_comm]

theorem sum_countLabel (l : List (ℕ × ℕ)) (K : ℕ) (h : ∀ p ∈ l, p.2 < K) :
    ∑ k ∈ Finset.range K, countLabel l k = l.length := by
  induction l with
  | nil => simp [countLabel_nil]
  | cons p t ih =>
    have hp : p.2 < K := h p (List.mem_cons_self p t)
    have ht : ∀ q ∈ t, q.2 < K := fun q hq => h q (List.mem_cons_of_mem p hq)
    calc ∑ k ∈ Finset.range K, countLabel (p :: t) k
        = ∑ k ∈ Finset.range K, (countLabel t k + if p.2 = k then 1 else 0) := by
          refine Finset.sum_congr rfl ?_
          intro k _
          rw [countLabel_cons]
      _ = (∑ k ∈ Finset.range K, countLabel t k)
            + ∑ k ∈ Finset.range K, (if p.2 = k then 1 else 0) := by
          rw [Finset.sum_add_distrib]
      _ = t.length + 1 := by
          rw [ih ht, Finset.sum_ite_eq (Finset.range K) p.2 (fun _ => 1),
            if_pos (Finset.mem_range.2 hp)]
      _ = (p :: t).length := by simp

theorem bincount_length (zs : List ℕ) :
    (bincount zs).length = zs.foldr (fun a m => max (a + 1) m) 0 := by
  simp [bincount]

theorem bincount_getD (zs : List ℕ) (k : ℕ) (h : k < (bincount zs).length) :
    (bincount zs).getD k 0 = (zs.filter (fun z => decide (z = k))).length := by
  rw [bincount_length] at h
  exact getD_map_range _ k _ 0 h

theorem lt_foldr_max (zs : List ℕ) (z : ℕ) (h : z ∈ zs) :
    z < zs.foldr (fun a m => max (a + 1) m) 0 := by
  induction zs with
  | nil => simp at h
  | cons a t ih =>
    rcases List.mem_cons.1 h with h | h
    · subst h
      simp only [List.foldr]
      omega
    · have := ih h
      simp only [List.foldr]
      omega

theorem countLabel_zip_range (zs : List ℕ) (n : ℕ) (hn : zs.length = n) (k : ℕ) :
    countLabel ((List.range n).zip zs) k = (zs.filter (fun z => decide (z = k))).length := by
  subst hn
  rw [countLabel]
  induction zs with
  | nil => simp
  | cons z t ih =>
    rw [List.length_cons, List.range_succ_eq_map, List.zip_cons_cons]
    by_cases h : z = k
    · simp only [List.filter, show (decide (((0 : ℕ), z).2 = k)) = true by simpa using h,
        show (decide (z = k)) = true by simpa using h]
      simp only [List.length_cons]
      congr 1
      rw [List.zip_map_left, List.filter_map]
      simp only [List.length_map]
      exact ih
    · simp only [List.filter, show (decide (((0 : ℕ), z).2 = k)) = false by simpa using h,
        show (decide (z = k)) = false by simpa using h]
      rw [List.zip_map_left, List.filter_map]
      simp only [List.length_map]
      exact ih

theorem sorted_zip_range (zs : List ℕ) (n : ℕ) (hn : zs.length = n) :
    ZrSorted ((List.range n).zip zs) := by
  have hkeys : ((List.range n).zip zs).map Prod.fst = List.range n :=
    List.map_fst_zip _ _ (by simp [hn])
  have : List.Pairwise (· < ·) (((List.range n).zip zs).map Prod.fst) := by
    rw [hkeys]
    exact List.pairwise_lt_range n
  rwa [List.pairwise_map] at this

/-! ## pflip support -/

theorem pflip_lt (ws : List ℚ) (seed : ℕ) (h : ws ≠ []) :
    pflip ws seed < ws.length := by
  rw [pflip]
  set pos := (List.range ws.length).filter (fun i => decide (0 < ws.getD i 0)) with hpos
  by_cases he : pos.isEmpty
  · simp only [if_pos he]
    cases ws with
    | nil => exact absurd rfl h
    | cons a t => simp
  · simp only [if_neg he]
    have hlen : 0 < pos.length := by
      cases hp : pos with
      | nil => rw [hp] at he; simp at he
      | cons a t => simp [hp]
    have hmem : pos.getD (seed % pos.length) 0 ∈ pos := by
      have : seed % pos.length < pos.length := Nat.mod_lt _ hlen
      rw [List.getD_eq_getElem?_getD, List.getElem?_eq_getElem this]
      exact List.getElem_mem _
    have : pos.getD (seed % pos.length) 0 ∈ List.range ws.length :=
      List.mem_of_mem_filter hmem
    exact List.mem_range.1 this

/-! ## Component-model lemmas -/

theorem padClusters_length (cs : List DimCluster) (k : ℕ) :
    (padClusters cs k).length = max (k + 1) cs.length := by
  simp [padClusters]
  omega

theorem padClusters_eq_self (cs : List DimCluster) (k : ℕ) (h : k < cs.length) :
    padClusters cs k = cs := by
  simp [padClusters]
  omega

theorem Dim.incorporate_length (d : Dim) (x : Option ℚ) (k : ℕ) :
    (d.incorporate x k).clusters.length = max (k + 1) d.clusters.length := by
  simp [Dim.incorporate, updNth_length, padClusters_length]

theorem Dim.unincorporate_length (d : Dim) (x : Option ℚ) (k : ℕ) :
    (d.unincorporate x k).clusters.length = d.clusters.length := by
  simp [Dim.unincorporate, updNth_length]

theorem Dim.dropCluster_length (d : Dim) (k : ℕ) (h : k < d.clusters.length) :
    (d.dropCluster k).clusters.length = d.clusters.length - 1 := by
  simp [Dim.dropCluster, List.length_eraseIdx, h]

theorem DimCluster.sub_add (c : DimCluster) (x : Option ℚ)
    (h : x = none ∨ 1 ≤ c.n) : (c.sub x).add x = c := by
  cases x with
  | none => rfl
  | some v =>
    rcases h with h | h
    · cases h
    · obtain ⟨n, sx⟩ := c
      simp only [DimCluster.sub, DimCluster.add, DimCluster.mk.injEq]
      constructor
      · simp only [] at h ⊢
        omega
      · ring

/-- Removing a row's value from a cluster and adding it back restores
the component model exactly (the cluster must exist and, for a present
value, actually contain a contribution). -/
theorem Dim.unincorporate_incorporate (d : Dim) (x : Option ℚ) (k : ℕ)
    (hk : k < d.clusters.length)
    (h : x = none ∨ 1 ≤ (d.clusters.getD k DimCluster.empty).n) :
    (d.unincorporate x k).incorporate x k = d := by
  obtain ⟨i, inp, c, hy, cs⟩ := d
  simp only [Dim.unincorporate, Dim.incorporate, Dim.mk.injEq, true_and]
  have hlen : (updNth cs k (·.sub x)).length = cs.length := updNth_length _ _ _
  rw [padClusters_eq_self _ _ (by simpa [hlen] using hk), updNth_updNth]
  apply updNth_eq_self _ _ _ DimCluster.empty
  exact DimCluster.sub_add _ _ (by simpa using h)

/-- A likelihood only reads the statistics of the cluster it evaluates:
removing the row from a different cluster `z` leaves it unchanged. -/
theorem Dim.like_unincorporate_ne (d : Dim) (x x' : Option ℚ) (ev : List ℚ)
    (k z : ℕ) (hkz : k ≠ z) :
    (d.unincorporate x' z).like x ev k = d.like x ev k := by
  cases x with
  | none => rfl
  | some v =>
    simp only [Dim.like, Dim.unincorporate]
    rw [updNth_getD_ne _ _ _ _ _ hkz]

/-! ## Partition-consistency invariant -/

namespace View

/-- The partition-consistency property claimed for all reachable states:
occupancy counts sum to the number of observed rows; cluster labels are
contiguous `0..K-1` (every assigned label is `< K` and every one of the
`K` occupancy counts is strictly positive); every attached component
model has exactly `K` cluster records. -/
def consistent (s : View) : Prop :=
  s.Nk.sum = s.Zr.length ∧
  (∀ k, k < s.Nk.length → 0 < s.Nk.getD k 0) ∧
  (∀ p ∈ s.Zr, p.2 < s.Nk.length) ∧
  (∀ d ∈ s.dims, d.clusters.length = s.Nk.length)

/-- Strengthened induction invariant: partition keys strictly sorted,
each occupancy count equal to the exact number of rows carrying the
label and positive, labels in range, component models in lockstep, and
positive `alpha` plus an all-positive alpha grid. -/
def Inv (s : View) : Prop :=
  ZrSorted s.Zr ∧
  (∀ k, k < s.Nk.length → s.Nk.getD k 0 = countLabel s.Zr k) ∧
  (∀ k, k < s.Nk.length → 0 < s.Nk.getD k 0) ∧
  (∀ p ∈ s.Zr, p.2 < s.Nk.length) ∧
  (∀ d ∈ s.dims, d.clusters.length = s.Nk.length) ∧
  0 < s.alpha ∧ (∀ a ∈ s.alphaGrid, 0 < a)

theorem consistent_of_Inv (s : View) (h : s.Inv) : s.consistent := by
  obtain ⟨hs, hcount, hpos, hbound, hdims, _, _⟩ := h
  refine ⟨?_, hpos, hbound, hdims⟩
  calc s.Nk.sum = ∑ k ∈ Finset.range s.Nk.length, s.Nk.getD k 0 :=
        sum_eq_sum_getD s.Nk
    _ = ∑ k ∈ Finset.range s.Nk.length, countLabel s.Zr k := by
        refine Finset.sum_congr rfl ?_
        intro k hk
        exact hcount k (Finset.mem_range.1 hk)
    _ = s.Zr.length := sum_countLabel s.Zr s.Nk.length hbound

theorem mkAlphaGrid_pos (n : ℕ) (hn : 1 ≤ n) :
    ∀ a ∈ mkAlphaGrid n, 0 < a := by
  intro a ha
  rcases List.mem_map.1 ha with ⟨i, _, hi⟩
  subst hi
  have h1 : (1 : ℚ) ≤ (n : ℚ) := by exact_mod_cast hn
  have h2 : (0 : ℚ) ≤ ((n : ℚ) ^ 2 - 1) := by nlinarith
  have h3 : (0 : ℚ) ≤ (i : ℚ) := Nat.cast_nonneg i
  have h4 : (0 : ℚ) ≤ (i : ℚ) * (((n : ℚ) ^ 2 - 1) / 29) :=
    mul_nonneg h3 (div_nonneg h2 (by norm_num))
  have : (0 : ℚ) < 1 + (i : ℚ) * (((n : ℚ) ^ 2 - 1) / 29) := by linarith
  have hn0 : (0 : ℚ) < (n : ℚ) := by linarith
  rw [div_pos_iff]
  left
  constructor
  · nlinarith
  · exact hn0

/-- Construction with an explicit partition whose labels are contiguous
(every bincount entry positive) and whose length matches the dataset's
row count establishes the invariant. -/
theorem Inv_mk0 (x : List (ℕ × List (Option ℚ))) (zs : List ℕ) (alpha : ℚ)
    (halpha : 0 < alpha)
    (hlen : zs.length = (View.mk0 x zs alpha).nRows)
    (hn : 1 ≤ (View.mk0 x zs alpha).nRows)
    (hcontig : ∀ k, k < (bincount zs).length → 0 < (bincount zs).getD k 0) :
    (View.mk0 x zs alpha).Inv := by
  set n := (View.mk0 x zs alpha).nRows with hnr
  have hnn : (View.mk0 x zs alpha).nRows = match x with | [] => 0 | c :: _ => c.2.length := by
    cases x <;> rfl
  have hZr : (View.mk0 x zs alpha).Zr = (List.range n).zip zs := by
    rw [hnr]
    cases x <;> rfl
  have hNk : (View.mk0 x zs alpha).Nk = bincount zs := rfl
  have hdims : (View.mk0 x zs alpha).dims = [] := rfl
  have halphav : (View.mk0 x zs alpha).alpha = alpha := rfl
  have hgrid : (View.mk0 x zs alpha).alphaGrid = mkAlphaGrid n := by
    rw [hnr]
    cases x <;> rfl
  have hzlen : zs.length = n := hlen
  refine ⟨?_, ?_, ?_, ?_, ?_, ?_, ?_⟩
  · rw [hZr]
    exact sorted_zip_range zs n hzlen
  · intro k hk
    rw [hZr, countLabel_zip_range zs n hzlen k, hNk, bincount_getD zs k (by rwa [hNk] at hk)]
  · intro k hk
    rw [hNk]
    exact hcontig k (by rwa [hNk] at hk)
  · intro p hp
    have := (List.of_mem_zip (by rwa [hZr] at hp)).2
    rw [hNk, bincount_length]
    exact lt_foldr_max zs p.2 this
  · intro d hd
    rw [hdims] at hd
    simp at hd
  · rw [halphav]
    exact halpha
  · rw [hgrid]
    exact mkAlphaGrid_pos n hn

end View

namespace View

/-- `incorporate` of a fresh rowid with a legal label (`0 ≤ k ≤ K`)
preserves the invariant. -/
theorem Inv_incorporate (s : View) (rowid k : ℕ) (hInv : s.Inv)
    (hfresh : zrLookup rowid s.Zr = none) (hk : k ≤ s.Nk.length) :
    (s.incorporate rowid k).Inv := by
  obtain ⟨hs, hcount, hpos, hbound, hdims, ha, hg⟩ := hInv
  set K := s.Nk.length with hK
  have hcK : countLabel s.Zr K = 0 := by
    apply countLabel_zero_of_forall
    intro p hp
    have := hbound p hp
    omega
  have hNk : (s.incorporate rowid k).Nk =
      updNth (if s.Nk.length = k then s.Nk ++ [0] else s.Nk) k (· + 1) := rfl
  have hZr : (s.incorporate rowid k).Zr = insertZr rowid k s.Zr := rfl
  have hdims' : (s.incorporate rowid k).dims =
      s.dims.map (fun d => d.incorporate (s.value d.index rowid) k) := rfl
  have hlen0 : (if s.Nk.length = k then s.Nk ++ [0] else s.Nk).length =
      if K = k then K + 1 else K := by
    split_ifs with h <;> simp [← hK]
  have hlen : (s.incorporate rowid k).Nk.length = if K = k then K + 1 else K := by
    rw [hNk, updNth_length, hlen0]
  have hgetD0 : ∀ j, j < K →
      (if s.Nk.length = k then s.Nk ++ [0] else s.Nk).getD j 0 = s.Nk.getD j 0 := by
    intro j hj
    split_ifs with h
    · exact List.getD_append _ _ _ _ (by omega)
    · rfl
  have hgetDk : (if s.Nk.length = k then s.Nk ++ [0] else s.Nk).getD k 0 =
      if K = k then 0 else s.Nk.getD k 0 := by
    split_ifs with h
    · rw [List.getD_append_right _ _ _ _ (by omega)]
      simp [← hK, h]
    · rfl
  refine ⟨?_, ?_, ?_, ?_, ?_, ha, hg⟩
  · rw [hZr]
    exact sorted_insertZr rowid k s.Zr hs
  · intro j hj
    rw [hZr, countLabel_insertZr rowid k s.Zr hfresh j, hNk]
    by_cases hjk : j = k
    · subst hjk
      rw [updNth_getD_eq _ _ _ _ (by rw [hlen0]; split_ifs with h <;> omega), hgetDk]
      by_cases h : K = j
      · rw [if_pos h, if_pos rfl]
        rw [← h] at *
        rw [hcK]
      · rw [if_neg h, if_pos rfl, hcount j (by omega)]
    · rw [updNth_getD_ne _ _ _ _ _ hjk, hgetD0 j ?hjlt, if_neg (fun hh => hjk hh.symm)]
      · rw [hlen] at hj
        have hjK : j < K := by
          split_ifs at hj with h
          · omega
          · omega
        rw [hcount j hjK]
        omega
      · case hjlt =>
          rw [hlen] at hj
          split_ifs at hj with h <;> omega
  · intro j hj
    rw [hNk]
    by_cases hjk : j = k
    · subst hjk
      rw [updNth_getD_eq _ _ _ _ (by rw [hlen0]; split_ifs with h <;> omega)]
      omega
    · rw [updNth_getD_ne _ _ _ _ _ hjk, hgetD0 j ?hjlt2]
      · apply hpos
        rw [hlen] at hj
        split_ifs at hj with h <;> omega
      · case hjlt2 =>
          rw [hlen] at hj
          split_ifs at hj with h <;> omega
  · intro p hp
    rw [hZr] at hp
    rw [hlen]
    rcases mem_insertZr rowid k s.Zr p hp with h | h
    · rw [h]
      split_ifs with hh <;> omega
    · have := hbound p h
      split_ifs with hh <;> omega
  · intro d hd
    rw [hdims'] at hd
    rcases List.mem_map.1 hd with ⟨d0, hd0, hde⟩
    subst hde
    rw [Dim.incorporate_length, hdims d0 hd0, hlen]
    split_ifs with hh <;> omega

end View

theorem getD_default_irrel {α : Type} (l : List α) (i : ℕ) (d1 d2 : α)
    (h : i < l.length) : l.getD i d1 = l.getD i d2 := by
  rw [List.getD_eq_getElem _ _ h, List.getD_eq_getElem _ _ h]

namespace View

/-- The two shapes of `unincorporate`, by whether the row's cluster
empties.  The branch condition of the source (`self.Nk[k] == 0` after
the decrement) is the row being a singleton in its cluster. -/
theorem unincorporate_eq_branches (s : View) (rowid k0 : ℕ) (hInv : s.Inv)
    (hr : zrLookup rowid s.Zr = some k0) :
    s.unincorporate rowid =
      if countLabel s.Zr k0 = 1 then
        { s with
          dims := (s.dims.map (fun d => d.unincorporate (s.value d.index rowid) k0)).map
            (fun d => d.dropCluster k0)
          Nk := (updNth s.Nk k0 (· - 1)).eraseIdx k0
          Zr := relabel k0 (eraseZr rowid s.Zr) }
      else
        { s with
          dims := s.dims.map (fun d => d.unincorporate (s.value d.index rowid) k0)
          Nk := updNth s.Nk k0 (· - 1)
          Zr := eraseZr rowid s.Zr } := by
  obtain ⟨hs, hcount, hpos, hbound, hdims, ha, hg⟩ := hInv
  have hk : (zrLookup rowid s.Zr).getD 0 = k0 := by rw [hr]; rfl
  have hkK : k0 < s.Nk.length := hbound _ (zrLookup_mem _ _ _ hr)
  have hNkk0 : s.Nk.getD k0 0 = countLabel s.Zr k0 := hcount k0 hkK
  have hposk0 : 0 < s.Nk.getD k0 0 := hpos k0 hkK
  have hcond : (updNth s.Nk k0 (· - 1)).getD k0 1 =
      countLabel s.Zr k0 - 1 := by
    rw [getD_default_irrel _ _ 1 0 (by rw [updNth_length]; exact hkK),
      updNth_getD_eq _ _ _ _ hkK, hNkk0]
  rw [View.unincorporate, hk, hcond]
  by_cases hsing : countLabel s.Zr k0 = 1
  · rw [if_pos (by omega), if_pos hsing]
    rfl
  · rw [if_neg (by omega), if_neg hsing]

end View

namespace View

/-- `unincorporate` of an observed row preserves the invariant. -/
theorem Inv_unincorporate (s : View) (rowid k0 : ℕ) (hInv : s.Inv)
    (hr : zrLookup rowid s.Zr = some k0) :
    (s.unincorporate rowid).Inv := by
  have heq := s.unincorporate_eq_branches rowid k0 hInv hr
  obtain ⟨hs, hcount, hpos, hbound, hdims, ha, hg⟩ := hInv
  set K := s.Nk.length with hK
  have hkK : k0 < K := hbound _ (zrLookup_mem _ _ _ hr)
  have hcerase : ∀ j, countLabel s.Zr j =
      countLabel (eraseZr rowid s.Zr) j + (if k0 = j then 1 else 0) :=
    countLabel_eraseZr rowid k0 s.Zr hs hr
  by_cases hsing : countLabel s.Zr k0 = 1
  · rw [heq, if_pos hsing]
    have hek0 : countLabel (eraseZr rowid s.Zr) k0 = 0 := by
      have := hcerase k0
      rw [if_pos rfl] at this
      omega
    have hupdlen : (updNth s.Nk k0 (· - 1)).length = K := updNth_length _ _ _
    have hNklen : ((updNth s.Nk k0 (· - 1)).eraseIdx k0).length = K - 1 := by
      rw [List.length_eraseIdx, if_pos (by rw [hupdlen]; exact hkK), hupdlen]
    refine ⟨?_, ?_, ?_, ?_, ?_, ha, hg⟩
    · exact sorted_relabel _ _ (sorted_eraseZr _ _ hs)
    · intro j hj
      rw [hNklen] at hj
      rw [countLabel_relabel k0 _ hek0 j]
      by_cases hjk : j < k0
      · rw [if_pos hjk, eraseIdx_getD_lt _ _ _ _ hjk,
          updNth_getD_ne _ _ _ _ _ (by omega)]
        have := hcerase j
        rw [if_neg (by omega)] at this
        rw [hcount j (by omega)]
        omega
      · rw [if_neg hjk, eraseIdx_getD_ge _ _ _ _ (by omega),
          updNth_getD_ne _ _ _ _ _ (by omega)]
        have := hcerase (j + 1)
        rw [if_neg (by omega)] at this
        rw [hcount (j + 1) (by omega)]
        omega
    · intro j hj
      rw [hNklen] at hj
      by_cases hjk : j < k0
      · rw [eraseIdx_getD_lt _ _ _ _ hjk, updNth_getD_ne _ _ _ _ _ (by omega)]
        exact hpos j (by omega)
      · rw [eraseIdx_getD_ge _ _ _ _ (by omega), updNth_getD_ne _ _ _ _ _ (by omega)]
        exact hpos (j + 1) (by omega)
    · intro p hp
      rw [hNklen]
      rcases List.mem_map.1 hp with ⟨q, hq, hqe⟩
      have hqZ : q ∈ s.Zr := mem_eraseZr _ _ _ hq
      have hqb : q.2 < K := hbound q hqZ
      have hqk0 : q.2 ≠ k0 := by
        intro hh
        have : 0 < countLabel (eraseZr rowid s.Zr) k0 :=
          (countLabel_pos_iff _ _).2 ⟨q, hq, hh⟩
        omega
      subst hqe
      simp only []
      split_ifs with hh <;> omega
    · intro d hd
      rcases List.mem_map.1 hd with ⟨d1, hd1, hde⟩
      rcases List.mem_map.1 hd1 with ⟨d0, hd0, hde0⟩
      subst hde
      subst hde0
      rw [hNklen, Dim.dropCluster_length, Dim.unincorporate_length, hdims d0 hd0]
      rw [Dim.unincorporate_length, hdims d0 hd0]
      exact hkK
  · rw [heq, if_neg hsing]
    have hc1 : 1 < countLabel s.Zr k0 := by
      have := hpos k0 hkK
      rw [hcount k0 hkK] at this
      omega
    refine ⟨?_, ?_, ?_, ?_, ?_, ha, hg⟩
    · exact sorted_eraseZr _ _ hs
    · intro j hj
      show (updNth s.Nk k0 (· - 1)).getD j 0 = countLabel (eraseZr rowid s.Zr) j
      rw [updNth_length] at hj
      by_cases hjk : j = k0
      · subst hjk
        rw [updNth_getD_eq _ _ _ _ hj, hcount j hj]
        have := hcerase j
        rw [if_pos rfl] at this
        omega
      · rw [updNth_getD_ne _ _ _ _ _ hjk, hcount j hj]
        have := hcerase j
        rw [if_neg (fun hh => hjk hh.symm)] at this
        omega
    · intro j hj
      rw [updNth_length] at hj
      by_cases hjk : j = k0
      · subst hjk
        rw [updNth_getD_eq _ _ _ _ hj, hcount j hj]
        omega
      · rw [updNth_getD_ne _ _ _ _ _ hjk]
        exact hpos j hj
    · intro p hp
      rw [updNth_length]
      exact hbound p (mem_eraseZr _ _ _ hp)
    · intro d hd
      rcases List.mem_map.1 hd with ⟨d0, hd0, hde⟩
      subst hde
      rw [updNth_length, Dim.unincorporate_length, hdims d0 hd0]

end View

namespace View

theorem Nk_length_unincorporate (s : View) (rowid k0 : ℕ) (hInv : s.Inv)
    (hr : zrLookup rowid s.Zr = some k0) :
    (s.unincorporate rowid).Nk.length =
      if countLabel s.Zr k0 = 1 then s.Nk.length - 1 else s.Nk.length := by
  have heq := s.unincorporate_eq_branches rowid k0 hInv hr
  have hkK : k0 < s.Nk.length := hInv.2.2.2.1 _ (zrLookup_mem _ _ _ hr)
  by_cases hsing : countLabel s.Zr k0 = 1
  · rw [heq, if_pos hsing, if_pos hsing]
    show ((updNth s.Nk k0 (· - 1)).eraseIdx k0).length = s.Nk.length - 1
    rw [List.length_eraseIdx, if_pos (by rw [updNth_length]; exact hkK), updNth_length]
  · rw [heq, if_neg hsing, if_neg hsing]
    exact updNth_length _ _ _

theorem zrLookup_unincorporate_self (s : View) (rowid k0 : ℕ) (hInv : s.Inv)
    (hr : zrLookup rowid s.Zr = some k0) :
    zrLookup rowid (s.unincorporate rowid).Zr = none := by
  have heq := s.unincorporate_eq_branches rowid k0 hInv hr
  by_cases hsing : countLabel s.Zr k0 = 1
  · rw [heq, if_pos hsing]
    show zrLookup rowid (relabel k0 (eraseZr rowid s.Zr)) = none
    rw [zrLookup_eq_none_iff, keys_relabel]
    rw [← zrLookup_eq_none_iff]
    exact zrLookup_eraseZr_self rowid s.Zr
  · rw [heq, if_neg hsing]
    exact zrLookup_eraseZr_self rowid s.Zr

/-- The Gibbs candidate-weight vector has `K` entries for a singleton
row and `K + 1` entries otherwise. -/
theorem gibbsWeights_length (s : View) (rowid : ℕ) :
    (s.gibbsWeights rowid).length =
      s.Nk.length + (if s.Nk.getD (s.zrOf rowid) 0 = 1 then 0 else 1) := by
  rw [gibbsWeights, List.length_zipWith, logpdfRowGibbs, crpGibbs]
  by_cases h : s.Nk.getD (s.zrOf rowid) 0 = 1 <;> simp [h]

/-- `_transition_row` preserves the invariant: the drawn label is always
legal for the re-incorporation that follows the unincorporation. -/
theorem Inv_transitionRow (s : View) (rowid : ℕ) (seed : ℕ) (hInv : s.Inv)
    (hr : (zrLookup rowid s.Zr).isSome) :
    (s.transitionRow rowid seed).Inv := by
  obtain ⟨k0, hk0⟩ := Option.isSome_iff_exists.1 hr
  have hkK : k0 < s.Nk.length := hInv.2.2.2.1 _ (zrLookup_mem _ _ _ hk0)
  have hz : s.zrOf rowid = k0 := by rw [zrOf, hk0]; rfl
  have hcl : s.Nk.getD k0 0 = countLabel s.Zr k0 := hInv.2.1 k0 hkK
  rw [transitionRow]
  by_cases hzb : pflip (s.gibbsWeights rowid) seed = s.zrOf rowid
  · rw [if_pos hzb]
    exact hInv
  · rw [if_neg hzb]
    have hlen : (s.gibbsWeights rowid).length =
        s.Nk.length + (if s.Nk.getD k0 0 = 1 then 0 else 1) := by
      rw [gibbsWeights_length, hz]
    have hne : s.gibbsWeights rowid ≠ [] := by
      intro hh
      rw [hh] at hlen
      simp at hlen
      omega
    have hb := pflip_lt (s.gibbsWeights rowid) seed hne
    rw [hlen] at hb
    have hInv' := s.Inv_unincorporate rowid k0 hInv hk0
    have hfresh' := s.zrLookup_unincorporate_self rowid k0 hInv hk0
    have hlen' := s.Nk_length_unincorporate rowid k0 hInv hk0
    apply Inv_incorporate _ _ _ hInv' hfresh'
    rw [hlen']
    by_cases hsing : countLabel s.Zr k0 = 1
    · rw [if_pos hsing]
      rw [hcl, if_pos hsing] at hb
      omega
    · rw [if_neg hsing]
      have hns : ¬ s.Nk.getD k0 0 = 1 := by rw [hcl]; exact hsing
      rw [if_neg hns] at hb
      omega

end View

theorem getD_pos_of_all (l : List ℚ) (i : ℕ) (h : ∀ a ∈ l, 0 < a) :
    0 < l.getD i 1 := by
  by_cases hi : i < l.length
  · rw [List.getD_eq_getElem _ _ hi]
    exact h _ (List.getElem_mem hi)
  · rw [List.getD_eq_default _ _ (by omega)]
    norm_num

namespace View

theorem Inv_transitionAlpha (s : View) (seed : ℕ) (hInv : s.Inv) :
    (s.transitionAlpha seed).Inv := by
  obtain ⟨hs, hcount, hpos, hbound, hdims, _, hg⟩ := hInv
  exact ⟨hs, hcount, hpos, hbound, hdims, getD_pos_of_all _ _ hg, hg⟩

theorem Dim.transitionHypers_clusters (d : Dim) (seed : ℕ) :
    (d.transitionHypers seed).clusters = d.clusters := rfl

theorem mem_foldl_hypersStep (ds : List Dim) (acc : List Dim) (rng : Rng)
    (d' : Dim) (h : d' ∈ (ds.foldl hypersStep (acc, rng)).1) :
    d' ∈ acc ∨ ∃ d ∈ ds, ∃ sd, d' = d.transitionHypers sd := by
  induction ds generalizing acc rng with
  | nil => exact Or.inl h
  | cons d t ih =>
    rw [List.foldl_cons] at h
    rcases ih _ _ h with hm | hm
    · rcases List.mem_append.1 hm with hm | hm
      · exact Or.inl hm
      · right
        refine ⟨d, List.mem_cons_self _ _, (rngNext rng).1, ?_⟩
        simpa using hm
    · rcases hm with ⟨d0, hd0, sd, hde⟩
      exact Or.inr ⟨d0, List.mem_cons_of_mem _ hd0, sd, hde⟩

theorem Inv_transitionColumnHypers (s : View) (rng : Rng) (hInv : s.Inv) :
    (s.transitionColumnHypers rng).1.Inv := by
  obtain ⟨hs, hcount, hpos, hbound, hdims, ha, hg⟩ := hInv
  refine ⟨hs, hcount, hpos, hbound, ?_, ha, hg⟩
  intro d' hd'
  have hm : d' ∈ (s.dims.foldl hypersStep ([], rng)).1 := hd'
  rcases mem_foldl_hypersStep s.dims [] rng d' hm with hm | hm
  · simp at hm
  · rcases hm with ⟨d0, hd0, sd, hde⟩
    subst hde
    rw [Dim.transitionHypers_clusters]
    exact hdims d0 hd0

theorem Inv_unincorporateDim (s : View) (col : ℕ) (hInv : s.Inv) :
    (s.unincorporateDim col).Inv := by
  obtain ⟨hs, hcount, hpos, hbound, hdims, ha, hg⟩ := hInv
  refine ⟨hs, hcount, hpos, hbound, ?_, ha, hg⟩
  intro d hd
  exact hdims d (List.mem_of_mem_filter hd)

theorem mem_dimsUpsert (d : Dim) (ds : List Dim) (d' : Dim)
    (h : d' ∈ dimsUpsert d ds) : d' = d ∨ d' ∈ ds := by
  induction ds with
  | nil => exact Or.inl (by simpa [dimsUpsert] using h)
  | cons e t ih =>
    by_cases h1 : d.index < e.index
    · rw [dimsUpsert, if_pos h1] at h
      rcases List.mem_cons.1 h with h | h
      · exact Or.inl h
      · exact Or.inr h
    · by_cases h2 : d.index = e.index
      · rw [dimsUpsert, if_neg h1, if_pos h2] at h
        rcases List.mem_cons.1 h with h | h
        · exact Or.inl h
        · exact Or.inr (List.mem_cons_of_mem _ h)
      · rw [dimsUpsert, if_neg h1, if_neg h2] at h
        rcases List.mem_cons.1 h with h | h
        · exact Or.inr (by simp [h])
        · rcases ih h with h | h
          · exact Or.inl h
          · exact Or.inr (List.mem_cons_of_mem _ h)

end View

/-! ## Bulk-incorporation lemmas -/

theorem perm_insLabel (p : ℕ × ℕ) (l : List (ℕ × ℕ)) :
    (insLabel p l).Perm (p :: l) := by
  induction l with
  | nil => simp [insLabel]
  | cons q t ih =>
    by_cases h : p.2 ≤ q.2
    · rw [insLabel, if_pos h]
    · rw [insLabel, if_neg h]
      exact List.Perm.trans (List.Perm.cons q ih) (List.Perm.swap p q t)

theorem perm_sortByLabel (l : List (ℕ × ℕ)) : (sortByLabel l).Perm l := by
  induction l with
  | nil => rfl
  | cons p t ih =>
    exact List.Perm.trans (perm_insLabel p (sortByLabel t)) (List.Perm.cons p ih)

theorem foldr_max_perm (l1 l2 : List ℕ) (h : l1.Perm l2) :
    l1.foldr (fun a m => max (a + 1) m) 0 = l2.foldr (fun a m => max (a + 1) m) 0 := by
  induction h with
  | nil => rfl
  | cons a _ ih => simp [List.foldr, ih]
  | swap a b t =>
    simp only [List.foldr]
    omega
  | trans _ _ ih1 ih2 => rw [ih1, ih2]

theorem foldIncorp_length (pairs : List (ℕ × ℕ)) (v : ℕ → Option ℚ) (d : Dim) :
    ((pairs.foldl (fun (acc : Dim) p => acc.incorporate (v p.1) p.2) d).clusters.length)
      = pairs.foldl (fun m p => max m (p.2 + 1)) d.clusters.length := by
  induction pairs generalizing d with
  | nil => rfl
  | cons p t ih =>
    rw [List.foldl_cons, List.foldl_cons, ih]
    congr 1
    rw [Dim.incorporate_length]
    omega

theorem foldl_max_eq (pairs : List (ℕ × ℕ)) (b : ℕ) :
    pairs.foldl (fun m p => max m (p.2 + 1)) b =
      max b ((pairs.map Prod.snd).foldr (fun a m => max (a + 1) m) 0) := by
  induction pairs generalizing b with
  | nil => simp
  | cons p t ih =>
    rw [List.foldl_cons, ih, List.map_cons, List.foldr_cons]
    have := ih (max b (p.2 + 1))
    omega

theorem foldr_max_le (zs : List ℕ) (K : ℕ) (h : ∀ z ∈ zs, z < K) :
    zs.foldr (fun a m => max (a + 1) m) 0 ≤ K := by
  induction zs with
  | nil => simp
  | cons z t ih =>
    have hz := h z (List.mem_cons_self z t)
    have ht := ih (fun z hz => h z (List.mem_cons_of_mem _ hz))
    simp only [List.foldr]
    omega

namespace View

/-- Under the invariant (and a nonempty partition) the bulk-incorporated
dim has exactly `K` cluster records and the source's truncation is a
no-op. -/
theorem bulkIncorporate_clusters_length (s : View) (d : Dim) (seed : ℕ)
    (hInv : s.Inv) (hne : s.Zr ≠ []) :
    (s.bulkIncorporate d seed).clusters.length = s.Nk.length := by
  obtain ⟨hs, hcount, hpos, hbound, hdims, ha, hg⟩ := hInv
  set K := s.Nk.length with hK
  have hKpos : 1 ≤ K := by
    cases hz : s.Zr with
    | nil => exact absurd hz hne
    | cons p t =>
      have : p.2 < K := hbound p (by rw [hz]; exact List.mem_cons_self p t)
      omega
  have hmax : (s.Zr.map Prod.snd).foldr (fun a m => max (a + 1) m) 0 = K := by
    have hle : (s.Zr.map Prod.snd).foldr (fun a m => max (a + 1) m) 0 ≤ K := by
      apply foldr_max_le
      intro z hz
      rcases List.mem_map.1 hz with ⟨p, hp, hpe⟩
      subst hpe
      exact hbound p hp
    have hgt : K - 1 < (s.Zr.map Prod.snd).foldr (fun a m => max (a + 1) m) 0 := by
      have hcpos : 0 < countLabel s.Zr (K - 1) := by
        have := hpos (K - 1) (by omega)
        rw [hcount (K - 1) (by omega)] at this
        exact this
      rcases (countLabel_pos_iff _ _).1 hcpos with ⟨p, hp, hpe⟩
      apply lt_foldr_max
      rw [← hpe]
      exact List.mem_map_of_mem Prod.snd hp
    omega
  have hsorted : ((sortByLabel s.Zr).map Prod.snd).foldr (fun a m => max (a + 1) m) 0 = K := by
    rw [foldr_max_perm _ (s.Zr.map Prod.snd) (List.Perm.map Prod.snd (perm_sortByLabel s.Zr))]
    exact hmax
  show ((((sortByLabel s.Zr).foldl
      (fun (acc : Dim) p => acc.incorporate (s.value d.index p.1) p.2)
      { d with clusters := [] }).clusters.take
        ((s.Zr.map Prod.snd).foldr (fun a m => max (a + 1) m) 0)).length) = K
  rw [List.length_take, foldIncorp_length, foldl_max_eq, hmax, hsorted]
  simp

end View

namespace View

/-- `incorporate_dim` with `reassign=True` (the statistics rebuilt from
the current partition) preserves the invariant whenever it completes. -/
theorem Inv_incorporateDim_reassign (s : View) (d : Dim) (seed : ℕ) (s' : View)
    (hInv : s.Inv) (hne : s.Zr ≠ [])
    (h : s.incorporateDim d true seed = Except.ok s') : s'.Inv := by
  rw [incorporateDim, if_pos rfl] at h
  by_cases hok : s.prepareIncorporateOk d.conditional = true
  · rw [if_pos hok] at h
    injection h with h
    subst h
    obtain ⟨hs, hcount, hpos, hbound, hdims, ha, hg⟩ := hInv
    refine ⟨hs, hcount, hpos, hbound, ?_, ha, hg⟩
    intro d' hd'
    rcases mem_dimsUpsert _ _ _ hd' with hm | hm
    · subst hm
      exact s.bulkIncorporate_clusters_length d seed
        ⟨hs, hcount, hpos, hbound, hdims, ha, hg⟩ hne
    · exact hdims d' hm
  · rw [if_neg hok] at h
    cases h

/-- `incorporate_dim` with `reassign=False` attaches the caller's dim
as-is; the documented precondition is that its cluster records already
match the view's partition. -/
theorem Inv_incorporateDim_noreassign (s : View) (d : Dim) (seed : ℕ) (s' : View)
    (hInv : s.Inv) (hlen : d.clusters.length = s.Nk.length)
    (h : s.incorporateDim d false seed = Except.ok s') : s'.Inv := by
  rw [incorporateDim] at h
  simp only [Bool.false_eq_true, if_false] at h
  injection h with h
  subst h
  obtain ⟨hs, hcount, hpos, hbound, hdims, ha, hg⟩ := hInv
  refine ⟨hs, hcount, hpos, hbound, ?_, ha, hg⟩
  intro d' hd'
  rcases mem_dimsUpsert _ _ _ hd' with hm | hm
  · subst hm
    exact hlen
  · exact hdims d' hm

end View

namespace View

/-- Completed-operation reachability exactly as the claim states it: any
sequence of construction, `incorporate`, `unincorporate`,
`incorporate_dim`, `unincorporate_dim` and transition operations, each
completing under its own documented preconditions.  Construction
completes whenever the view's own defensive assertions
(`_check_partitions`) pass — they do not require the initial partition's
labels to be contiguous.  (`transition(N)` and `transition_rows` are
sequential compositions of the single-step cases below.) -/
inductive ReachRaw : View → Prop
  | construct (x : List (ℕ × List (Option ℚ))) (zs : List ℕ) (alpha : ℚ)
      (hchk : (View.mk0 x zs alpha).checkPartitions = true) :
      ReachRaw (View.mk0 x zs alpha)
  | incorporate (s : View) (rowid k : ℕ) (hs : ReachRaw s)
      (hfresh : zrLookup rowid s.Zr = none) (hk : k ≤ s.Nk.length) :
      ReachRaw (s.incorporate rowid k)
  | unincorporate (s : View) (rowid : ℕ) (hs : ReachRaw s)
      (hr : (zrLookup rowid s.Zr).isSome) :
      ReachRaw (s.unincorporate rowid)
  | incorporateDim (s : View) (d : Dim) (seed : ℕ) (s' : View) (hs : ReachRaw s)
      (hne : s.Zr ≠ [])
      (h : s.incorporateDim d true seed = Except.ok s') : ReachRaw s'
  | incorporateDimNoReassign (s : View) (d : Dim) (seed : ℕ) (s' : View)
      (hs : ReachRaw s) (hlen : d.clusters.length = s.Nk.length)
      (h : s.incorporateDim d false seed = Except.ok s') : ReachRaw s'
  | unincorporateDim (s : View) (col : ℕ) (hs : ReachRaw s) :
      ReachRaw (s.unincorporateDim col)
  | transitionRow (s : View) (rowid seed : ℕ) (hs : ReachRaw s)
      (hr : (zrLookup rowid s.Zr).isSome) : ReachRaw (s.transitionRow rowid seed)
  | transitionAlpha (s : View) (seed : ℕ) (hs : ReachRaw s) :
      ReachRaw (s.transitionAlpha seed)
  | transitionColumnHypers (s : View) (rng : Rng) (hs : ReachRaw s) :
      ReachRaw (s.transitionColumnHypers rng).1

/-- Reachability as in `ReachRaw` but with the construction partition
additionally required to be contiguous (every bincount entry positive)
and to cover exactly the dataset's rows — the amendment the
counterexample to the claim as stated forces. -/
inductive Reach : View → Prop
  | construct (x : List (ℕ × List (Option ℚ))) (zs : List ℕ) (alpha : ℚ)
      (halpha : 0 < alpha)
      (hlen : zs.length = (View.mk0 x zs alpha).nRows)
      (hn : 1 ≤ (View.mk0 x zs alpha).nRows)
      (hcontig : ∀ k, k < (bincount zs).length → 0 < (bincount zs).getD k 0) :
      Reach (View.mk0 x zs alpha)
  | incorporate (s : View) (rowid k : ℕ) (hs : Reach s)
      (hfresh : zrLookup rowid s.Zr = none) (hk : k ≤ s.Nk.length) :
      Reach (s.incorporate rowid k)
  | unincorporate (s : View) (rowid : ℕ) (hs : Reach s)
      (hr : (zrLookup rowid s.Zr).isSome) :
      Reach (s.unincorporate rowid)
  | incorporateDim (s : View) (d : Dim) (seed : ℕ) (s' : View) (hs : Reach s)
      (hne : s.Zr ≠ [])
      (h : s.incorporateDim d true seed = Except.ok s') : Reach s'
  | incorporateDimNoReassign (s : View) (d : Dim) (seed : ℕ) (s' : View)
      (hs : Reach s) (hlen : d.clusters.length = s.Nk.length)
      (h : s.incorporateDim d false seed = Except.ok s') : Reach s'
  | unincorporateDim (s : View) (col : ℕ) (hs : Reach s) :
      Reach (s.unincorporateDim col)
  | transitionRow (s : View) (rowid seed : ℕ) (hs : Reach s)
      (hr : (zrLookup rowid s.Zr).isSome) : Reach (s.transitionRow rowid seed)
  | transitionAlpha (s : View) (seed : ℕ) (hs : Reach s) :
      Reach (s.transitionAlpha seed)
  | transitionColumnHypers (s : View) (rng : Rng) (hs : Reach s) :
      Reach (s.transitionColumnHypers rng).1

/-- Every state reachable with a contiguous construction partition
satisfies the strengthened invariant. -/
theorem Inv_of_Reach (s : View) (h : Reach s) : s.Inv := by
  induction h with
  | construct x zs alpha halpha hlen hn hcontig =>
    exact Inv_mk0 x zs alpha halpha hlen hn hcontig
  | incorporate s rowid k _ hfresh hk ih =>
    exact s.Inv_incorporate rowid k ih hfresh hk
  | unincorporate s rowid _ hr ih =>
    obtain ⟨k0, hk0⟩ := Option.isSome_iff_exists.1 hr
    exact s.Inv_unincorporate rowid k0 ih hk0
  | incorporateDim s d seed s' _ hne hok ih =>
    exact s.Inv_incorporateDim_reassign d seed s' ih hne hok
  | incorporateDimNoReassign s d seed s' _ hlen hok ih =>
    exact s.Inv_incorporateDim_noreassign d seed s' ih hlen hok
  | unincorporateDim s col _ ih =>
    exact s.Inv_unincorporateDim col ih
  | transitionRow s rowid seed _ hr ih =>
    exact s.Inv_transitionRow rowid seed ih hr
  | transitionAlpha s seed _ ih =>
    exact s.Inv_transitionAlpha seed ih
  | transitionColumnHypers s rng _ ih =>
    exact s.Inv_transitionColumnHypers rng ih

end View

instance (s : View) : Decidable s.consistent := by
  unfold View.consistent
  infer_instance

instance (s : View) : Decidable s.Inv := by
  unfold View.Inv ZrSorted
  infer_instance

/-! ## Claim C1: partition consistency of reachable states -/

/-- Claim C1, counterexample to the statement as written: the constructor
accepts the explicit starting partition `Zr = [0, 2]` (two rows, labels 0
and 2) — every one of its own `_check_partitions` assertions passes, so
the construction completes and the state is reachable — yet the resulting
occupancy vector is `Nk = [1, 0, 1]`: the active label 1 has occupancy 0,
so the labels are not contiguous with strictly positive counts and the
partition-consistency property fails. -/
theorem c1_counterexample :
    View.ReachRaw (View.mk0 [(0, [some 1, some 0])] [0, 2] 1) ∧
    (View.mk0 [(0, [some 1, some 0])] [0, 2] 1).checkPartitions = true ∧
    ¬ (View.mk0 [(0, [some 1, some 0])] [0, 2] 1).consistent :=
  ⟨View.ReachRaw.construct _ _ _ (by decide), by decide, by decide⟩

/-- Claim C1 (amended): for every View state reachable by construction,
incorporate, unincorporate, incorporate_dim, unincorporate_dim and
transition operations — with construction required to start from a
partition with contiguous labels (every bincount entry positive) of the
dataset's length, and the other operations meeting their documented
preconditions — the partition is consistent: the occupancy counts sum to
the number of observed rows, cluster labels are contiguous `0..K-1` with
every active cluster's count strictly positive, and every attached
component model has exactly `K` per-cluster statistic records. -/
theorem c1_partition_consistency (s : View) (h : View.Reach s) : s.consistent :=
  View.consistent_of_Inv s (View.Inv_of_Reach s h)

/-- Claim C1, witness: a three-row view built by construction followed by
an unincorporation is consistent. -/
theorem c1_partition_consistency_witness :
    ((View.mk0 [(0, [some 1, some 0, some 2])] [0, 0, 1] 1).unincorporate 1).consistent :=
  c1_partition_consistency _
    (View.Reach.unincorporate _ 1
      (View.Reach.construct _ _ _ (by norm_num) (by decide) (by decide) (by decide))
      (by decide))

/-! ## Claim C2: the row Gibbs kernel -/

theorem getD_zipWith_mul (a b : List ℚ) (k : ℕ) (ha : k < a.length)
    (hb : k < b.length) :
    (List.zipWith (· * ·) a b).getD k 0 = a.getD k 0 * b.getD k 0 := by
  induction a generalizing b k with
  | nil => simp at ha
  | cons x t ih =>
    cases b with
    | nil => simp at hb
    | cons y u =>
      cases k with
      | zero => rfl
      | succ j =>
        simp only [List.zipWith_cons_cons, List.getD_cons_succ]
        exact ih u j (by simpa using ha) (by simpa using hb)

namespace View

/-- The claim's description of one candidate weight of the row Gibbs
kernel: the product (log: sum) over all attached columns of the row's
value's likelihood under cluster `k` with the row's own contribution
removed from its current cluster's statistics, times the CRP predictive
weight for `k`. -/
def gibbsSpecWeight (s : View) (rowid k : ℕ) : ℚ :=
  (s.dims.map (fun d =>
    (d.unincorporate (s.value d.index rowid) (s.zrOf rowid)).like
      (s.value d.index rowid) (s.getEvidence rowid d) k)).prod *
    (s.crpGibbs rowid).getD k 0

end View

/-- Claim C2, counterexample to the statement as written: in a two-row,
two-cluster view where row 0 is alone in its cluster, the row transition
kernel evaluates only `K = 2` candidate clusters — the singleton row's
own cluster doubles as the auxiliary one (`m_aux = m - 1`) — not the
`K + 1 = 3` candidates (every existing cluster plus one synthetic
auxiliary cluster) the claim asserts for every observed row. -/
theorem c2_counterexample :
    (View.gibbsWeights
        { x := [(0, [some 1, some 0])], alphaGrid := View.mkAlphaGrid 2, alpha := 1,
          Zr := [(0, 0), (1, 1)], Nk := [1, 1],
          dims := [⟨0, [], false, 1, [⟨1, 1⟩, ⟨1, 0⟩]⟩] } 0).length = 2 ∧
    (View.gibbsWeights
        { x := [(0, [some 1, some 0])], alphaGrid := View.mkAlphaGrid 2, alpha := 1,
          Zr := [(0, 0), (1, 1)], Nk := [1, 1],
          dims := [⟨0, [], false, 1, [⟨1, 1⟩, ⟨1, 0⟩]⟩] } 0).length ≠
      ({ x := [(0, [some 1, some 0])], alphaGrid := View.mkAlphaGrid 2, alpha := 1,
         Zr := [(0, 0), (1, 1)], Nk := [1, 1],
         dims := [⟨0, [], false, 1, [⟨1, 1⟩, ⟨1, 0⟩]⟩] } : View).Nk.length + 1 := by
  constructor
  · decide
  · decide

/-- Claim C2 (amended): one step of the row transition kernel computes,
for every existing cluster label plus one synthetic auxiliary cluster
when the row is not alone in its cluster — and for the `K` existing
labels only when it is, its own cluster serving as the auxiliary — the
product (log: sum) over all attached columns of the column's likelihood
of the row's value under that cluster with the row's own contribution
removed from its current cluster's statistics, times (log: plus) the CRP
predictive weight for that label; it draws a label by categorical
sampling on that weight vector and performs unincorporate followed by
incorporate with the drawn label exactly when the drawn label differs
from the row's current one. -/
theorem c2_row_transition (s : View) (rowid seed k0 : ℕ)
    (hr : zrLookup rowid s.Zr = some k0) :
    (s.gibbsWeights rowid).length
        = s.Nk.length + (if s.Nk.getD k0 0 = 1 then 0 else 1) ∧
    (∀ k, k < (s.gibbsWeights rowid).length →
      (s.gibbsWeights rowid).getD k 0 = s.gibbsSpecWeight rowid k) ∧
    s.transitionRow rowid seed =
      (if pflip (s.gibbsWeights rowid) seed = k0 then s
       else (s.unincorporate rowid).incorporate rowid
         (pflip (s.gibbsWeights rowid) seed)) := by
  have hz : s.zrOf rowid = k0 := by rw [View.zrOf, hr]; rfl
  have hlen := s.gibbsWeights_length rowid
  rw [hz] at hlen
  refine ⟨hlen, ?_, ?_⟩
  · intro k hk
    rw [hlen] at hk
    have hdata : (s.logpdfRowGibbs rowid).length
        = s.Nk.length + (if s.Nk.getD k0 0 = 1 then 0 else 1) := by
      rw [View.logpdfRowGibbs, hz]
      simp
    have hcrp : (s.crpGibbs rowid).length
        = s.Nk.length + (if s.Nk.getD k0 0 = 1 then 0 else 1) := by
      rw [View.crpGibbs, hz]
      by_cases h : s.Nk.getD k0 0 = 1 <;> simp [h]
    rw [View.gibbsWeights, getD_zipWith_mul _ _ k (by rw [hdata]; exact hk)
      (by rw [hcrp]; exact hk)]
    rw [View.gibbsSpecWeight]
    congr 1
    rw [View.logpdfRowGibbs, hz,
      getD_map_range _ _ _ 0 (by rw [← hz]; rw [hz]; exact hk)]
    congr 1
    apply List.map_congr_left
    intro d _
    rw [View.logpdfCellGibbs, hz]
    by_cases hkz : k0 = k
    · rw [if_pos hkz, hkz]
    · rw [if_neg hkz]
      exact (Dim.like_unincorporate_ne d _ _ _ k k0 (fun hh => hkz hh.symm)).symm
  · rw [View.transitionRow, hz]

/-- Claim C2, witness: the amended description holds at a concrete
two-row view whose observed row 1 shares no cluster (the non-singleton
branch: three candidates). -/
theorem c2_row_transition_witness :
    ((View.gibbsWeights
        { x := [(0, [some 1, some 0])], alphaGrid := View.mkAlphaGrid 2, alpha := 1,
          Zr := [(0, 0), (1, 0)], Nk := [2],
          dims := [⟨0, [], false, 1, [⟨2, 1⟩]⟩] } 1).length
        = ({ x := [(0, [some 1, some 0])], alphaGrid := View.mkAlphaGrid 2, alpha := 1,
             Zr := [(0, 0), (1, 0)], Nk := [2],
             dims := [⟨0, [], false, 1, [⟨2, 1⟩]⟩] } : View).Nk.length +
          (if ({ x := [(0, [some 1, some 0])], alphaGrid := View.mkAlphaGrid 2, alpha := 1,
                 Zr := [(0, 0), (1, 0)], Nk := [2],
                 dims := [⟨0, [], false, 1, [⟨2, 1⟩]⟩] } : View).Nk.getD 0 0 = 1
           then 0 else 1)) ∧
    (∀ k, k < (View.gibbsWeights
        { x := [(0, [some 1, some 0])], alphaGrid := View.mkAlphaGrid 2, alpha := 1,
          Zr := [(0, 0), (1, 0)], Nk := [2],
          dims := [⟨0, [], false, 1, [⟨2, 1⟩]⟩] } 1).length →
      (View.gibbsWeights
        { x := [(0, [some 1, some 0])], alphaGrid := View.mkAlphaGrid 2, alpha := 1,
          Zr := [(0, 0), (1, 0)], Nk := [2],
          dims := [⟨0, [], false, 1, [⟨2, 1⟩]⟩] } 1).getD k 0 =
      View.gibbsSpecWeight
        { x := [(0, [some 1, some 0])], alphaGrid := View.mkAlphaGrid 2, alpha := 1,
          Zr := [(0, 0), (1, 0)], Nk := [2],
          dims := [⟨0, [], false, 1, [⟨2, 1⟩]⟩] } 1 k) ∧
    View.transitionRow
        { x := [(0, [some 1, some 0])], alphaGrid := View.mkAlphaGrid 2, alpha := 1,
          Zr := [(0, 0), (1, 0)], Nk := [2],
          dims := [⟨0, [], false, 1, [⟨2, 1⟩]⟩] } 1 7 =
      (if pflip (View.gibbsWeights
          { x := [(0, [some 1, some 0])], alphaGrid := View.mkAlphaGrid 2, alpha := 1,
            Zr := [(0, 0), (1, 0)], Nk := [2],
            dims := [⟨0, [], false, 1, [⟨2, 1⟩]⟩] } 1) 7 = 0
       then { x := [(0, [some 1, some 0])], alphaGrid := View.mkAlphaGrid 2, alpha := 1,
              Zr := [(0, 0), (1, 0)], Nk := [2],
              dims := [⟨0, [], false, 1, [⟨2, 1⟩]⟩] }
       else (View.unincorporate
          { x := [(0, [some 1, some 0])], alphaGrid := View.mkAlphaGrid 2, alpha := 1,
            Zr := [(0, 0), (1, 0)], Nk := [2],
            dims := [⟨0, [], false, 1, [⟨2, 1⟩]⟩] } 1).incorporate 1
         (pflip (View.gibbsWeights
            { x := [(0, [some 1, some 0])], alphaGrid := View.mkAlphaGrid 2, alpha := 1,
              Zr := [(0, 0), (1, 0)], Nk := [2],
              dims := [⟨0, [], false, 1, [⟨2, 1⟩]⟩] } 1) 7)) :=
  c2_row_transition _ 1 7 0 (by decide)

/-! ## Claim C3: round-trip identity -/

theorem take_updNth {α : Type} (l : List α) (k : ℕ) (f : α → α) :
    (updNth l k f).take k = l.take k := by
  induction l generalizing k with
  | nil => rfl
  | cons a t ih =>
    cases k with
    | zero => rfl
    | succ j => simp [updNth, List.take_succ_cons, ih j]

theorem take_append_getD {α : Type} (l : List α) (k : ℕ) (d : α)
    (h : l.length = k + 1) : l.take k ++ [l.getD k d] = l := by
  induction l generalizing k with
  | nil => simp at h
  | cons a t ih =>
    cases k with
    | zero =>
      have : t = [] := by
        cases t with
        | nil => rfl
        | cons b u => simp at h
      simp [this]
    | succ j =>
      simp only [List.take_succ_cons, List.getD_cons_succ, List.cons_append]
      rw [ih j (by simpa using h)]

theorem updNth_append_last {α : Type} (l : List α) (a : α) (f : α → α) :
    updNth (l ++ [a]) l.length f = l ++ [f a] := by
  induction l with
  | nil => rfl
  | cons b t ih => simp [updNth, ih]

theorem updNth_append_last' {α : Type} (l : List α) (a : α) (f : α → α) (k : ℕ)
    (h : l.length = k) : updNth (l ++ [a]) k f = l ++ [f a] := by
  subst h
  exact updNth_append_last l a f

theorem eraseIdx_last {α : Type} (l : List α) (k : ℕ) (h : l.length = k + 1) :
    l.eraseIdx k = l.take k := by
  rw [List.eraseIdx_eq_take_drop_succ, List.drop_eq_nil_of_le (by omega),
    List.append_nil]

theorem relabel_id (k : ℕ) (l : List (ℕ × ℕ)) (h : ∀ p ∈ l, p.2 ≤ k) :
    relabel k l = l := by
  rw [relabel]
  have : ∀ p ∈ l, (fun (p : ℕ × ℕ) => (p.1, if k < p.2 then p.2 - 1 else p.2)) p = p := by
    intro p hp
    have := h p hp
    simp only []
    rw [if_neg (by omega)]
  rw [List.map_congr_left this]
  exact List.map_id' l

theorem filter_eq_single (l : List (ℕ × ℕ)) (q : ℕ × ℕ) (hmem : q ∈ l)
    (hcount : countLabel l q.2 = 1) :
    l.filter (fun p => decide (p.2 = q.2)) = [q] := by
  have hlen : (l.filter (fun p => decide (p.2 = q.2))).length = 1 := hcount
  rcases List.length_eq_one.1 hlen with ⟨a, ha⟩
  have hqf : q ∈ l.filter (fun p => decide (p.2 = q.2)) :=
    List.mem_filter.2 ⟨hmem, by simp⟩
  rw [ha] at hqf
  rcases List.mem_singleton.1 hqf with h
  rw [ha, h]

namespace View

/-- The sufficient-statistic record column `col` should hold for cluster
`k`: the count and sum of the present values of the rows labelled `k`. -/
def clusterOf (s : View) (col k : ℕ) : DimCluster :=
  let vals := (s.Zr.filter (fun p => decide (p.2 = k))).filterMap
    (fun p => s.value col p.1)
  ⟨vals.length, vals.sum⟩

/-- Statistic accuracy: every attached component model's cluster records
are exactly the statistics of the rows currently assigned to each
cluster. -/
def StatInv (s : View) : Prop :=
  ∀ d ∈ s.dims, d.clusters.length = s.Nk.length ∧
    ∀ k, k < s.Nk.length → d.clusters.getD k DimCluster.empty = s.clusterOf d.index k

theorem clusterOf_n_pos (s : View) (col k rowid : ℕ) (v : ℚ)
    (hmem : (rowid, k) ∈ s.Zr) (hv : s.value col rowid = some v) :
    1 ≤ (s.clusterOf col k).n := by
  rw [clusterOf]
  have h1 : (rowid, k) ∈ s.Zr.filter (fun p => decide (p.2 = k)) :=
    List.mem_filter.2 ⟨hmem, by simp⟩
  have h2 : v ∈ (s.Zr.filter (fun p => decide (p.2 = k))).filterMap
      (fun p => s.value col p.1) :=
    List.mem_filterMap.2 ⟨(rowid, k), h1, hv⟩
  have := List.length_pos_of_mem h2
  simpa using this

end View

instance (s : View) : Decidable s.StatInv := by
  unfold View.StatInv
  infer_instance

namespace View

theorem incorporate_eq_of_ne (s : View) (rowid k : ℕ) (hk : s.Nk.length ≠ k) :
    s.incorporate rowid k =
      { s with
        Nk := updNth s.Nk k (· + 1),
        Zr := insertZr rowid k s.Zr,
        dims := s.dims.map (fun d => d.incorporate (s.value d.index rowid) k) } := by
  simp only [View.incorporate]
  rw [if_neg hk]

theorem incorporate_eq_of_eq (s : View) (rowid k : ℕ) (hk : s.Nk.length = k) :
    s.incorporate rowid k =
      { s with
        Nk := updNth (s.Nk ++ [0]) k (· + 1),
        Zr := insertZr rowid k s.Zr,
        dims := s.dims.map (fun d => d.incorporate (s.value d.index rowid) k) } := by
  simp only [View.incorporate]
  rw [if_pos hk]

theorem clusterOf_single (s : View) (col rowid k0 : ℕ)
    (hmem : (rowid, k0) ∈ s.Zr) (hsing : countLabel s.Zr k0 = 1) :
    s.clusterOf col k0 = DimCluster.empty.add (s.value col rowid) := by
  have hfe : s.Zr.filter (fun p => decide (p.2 = k0)) = [(rowid, k0)] :=
    filter_eq_single s.Zr (rowid, k0) hmem hsing
  rw [clusterOf, hfe]
  cases hv : s.value col rowid with
  | none => simp [List.filterMap, hv, DimCluster.add, DimCluster.empty]
  | some v => simp [List.filterMap, hv, DimCluster.add, DimCluster.empty]

end View


namespace View

/-- The round-trip restoration, in its valid cases: unincorporating an
observed row and re-incorporating it with its original label restores
the whole view state when the row is not alone in its cluster, or is
alone in the cluster with the highest label. -/
theorem roundTrip_restores (s : View) (rowid k0 : ℕ)
    (hInv : s.Inv) (hstat : s.StatInv)
    (hr : zrLookup rowid s.Zr = some k0)
    (hcase : countLabel s.Zr k0 ≠ 1 ∨ k0 + 1 = s.Nk.length) :
    (s.unincorporate rowid).incorporate rowid k0 = s := by
  have heq := s.unincorporate_eq_branches rowid k0 hInv hr
  obtain ⟨hsort, hcount, hpos, hbound, hdims, ha, hg⟩ := hInv
  have hmem := zrLookup_mem _ _ _ hr
  have hkK : k0 < s.Nk.length := hbound _ hmem
  have hcl : 0 < countLabel s.Zr k0 := (countLabel_pos_iff _ _).2 ⟨_, hmem, rfl⟩
  obtain ⟨sx, sgrid, salpha, sZ, sN, sd⟩ := s
  simp only [] at hsort hcount hpos hbound hdims hcl hmem hr heq hkK
  by_cases hsing : countLabel sZ k0 = 1
  · have hlast : k0 + 1 = sN.length := by
      rcases hcase with h | h
      · exact absurd hsing h
      · exact h
    rw [heq, if_pos hsing]
    have hNlen : (((updNth sN k0 (· - 1)).eraseIdx k0)).length = k0 := by
      rw [List.length_eraseIdx, if_pos (by rw [updNth_length]; omega), updNth_length]
      omega
    rw [incorporate_eq_of_eq _ rowid k0 (by exact hNlen)]
    have hNkeq : updNth (((updNth sN k0 (· - 1)).eraseIdx k0) ++ [0]) k0 (· + 1) = sN := by
      rw [eraseIdx_last _ k0 (by rw [updNth_length]; omega), take_updNth]
      have htk : (sN.take k0).length = k0 := by
        rw [List.length_take]
        omega
      rw [updNth_append_last' _ _ _ k0 htk]
      have hg1 : sN.getD k0 0 = 1 := by
        have := hcount k0 hkK
        simp only [] at this ⊢
        omega
      rw [show (0 + 1 : ℕ) = 1 from rfl, ← hg1]
      exact take_append_getD sN k0 0 (by omega)
    have hZreq : insertZr rowid k0 (relabel k0 (eraseZr rowid sZ)) = sZ := by
      rw [relabel_id]
      · exact insertZr_eraseZr rowid k0 sZ hsort hr
      · intro p hp
        have := hbound p (mem_eraseZr _ _ _ hp)
        simp only [] at this
        omega
    simp only [View.mk.injEq]
    refine ⟨by trivial, by trivial, by trivial, hZreq, hNkeq, ?_⟩
    rw [List.map_map, List.map_map]
    refine (List.map_congr_left ?_).trans (List.map_id' sd)
    intro d hd
    have hdl : d.clusters.length = sN.length := hdims d hd
    have hst2 := (hstat d hd).2 k0 hkK
    obtain ⟨di, dinp, dc, dhy, dcs⟩ := d
    show (((Dim.mk di dinp dc dhy dcs).unincorporate
        (View.value ⟨sx, sgrid, salpha, sZ, sN, sd⟩ di rowid) k0).dropCluster
          k0).incorporate
        (View.value ⟨sx, sgrid, salpha, sZ, sN, sd⟩ di rowid) k0
      = Dim.mk di dinp dc dhy dcs
    set x := View.value ⟨sx, sgrid, salpha, sZ, sN, sd⟩ di rowid with hx
    simp only [Dim.unincorporate, Dim.dropCluster, Dim.incorporate, Dim.mk.injEq,
      true_and]
    have hcl1 : dcs.length = k0 + 1 := by
      simp only [] at hdl
      omega
    rw [eraseIdx_last _ k0 (by rw [updNth_length]; exact hcl1), take_updNth]
    have htk : (dcs.take k0).length = k0 := by
      rw [List.length_take]
      omega
    rw [padClusters, htk, show k0 + 1 - k0 = 1 from by omega,
      show List.replicate 1 DimCluster.empty = [DimCluster.empty] from rfl,
      updNth_append_last' _ _ _ k0 htk]
    have hgetd : dcs.getD k0 DimCluster.empty = DimCluster.empty.add x := by
      simp only [] at hst2
      rw [hst2]
      exact clusterOf_single _ di rowid k0 hmem hsing
    rw [← hgetd]
    exact take_append_getD dcs k0 DimCluster.empty hcl1
  · rw [heq, if_neg hsing]
    rw [incorporate_eq_of_ne _ rowid k0 (by rw [updNth_length]; omega)]
    have hNkeq : updNth (updNth sN k0 (· - 1)) k0 (· + 1) = sN := by
      rw [updNth_updNth]
      apply updNth_eq_self _ _ _ 0
      have := hcount k0 hkK
      simp only [] at this ⊢
      omega
    have hZreq : insertZr rowid k0 (eraseZr rowid sZ) = sZ :=
      insertZr_eraseZr rowid k0 sZ hsort hr
    simp only [View.mk.injEq]
    refine ⟨by trivial, by trivial, by trivial, hZreq, hNkeq, ?_⟩
    rw [List.map_map]
    refine (List.map_congr_left ?_).trans (List.map_id' sd)
    intro d hd
    have hdl : d.clusters.length = sN.length := hdims d hd
    have hst2 := (hstat d hd).2 k0 hkK
    show ((d.unincorporate
        (View.value ⟨sx, sgrid, salpha, sZ, sN, sd⟩ d.index rowid) k0).incorporate
        (View.value ⟨sx, sgrid, salpha, sZ, sN, sd⟩ d.index rowid) k0) = d
    apply Dim.unincorporate_incorporate
    · simp only [] at hdl ⊢
      omega
    · cases hv : View.value ⟨sx, sgrid, salpha, sZ, sN, sd⟩ d.index rowid with
      | none => exact Or.inl rfl
      | some v =>
        right
        rw [hst2]
        exact clusterOf_n_pos _ d.index k0 rowid v hmem hv

end View
/-- A concrete healthy two-row, two-cluster view with one attached
column (both cells carrying the missing-value sentinel): row 0 alone in
cluster 0, row 1 alone in cluster 1. -/
def exView2 : View :=
  { x := [(0, [none, none])]
    alphaGrid := [1]
    alpha := 1
    Zr := [(0, 0), (1, 1)]
    Nk := [1, 1]
    dims := [⟨0, [], false, 1, [⟨0, 0⟩, ⟨0, 0⟩]⟩] }

/-- Claim C3, counterexample to the statement as written: in the healthy
view `exView2` (invariant and exact statistics both hold) whose row 0 is
alone in cluster 0 of 2, unincorporating row 0 and re-incorporating it
with its original label 0 does not restore the state: the label
compaction renames cluster 1 to 0, so re-incorporation merges the row
into the other cluster — the component model ends with one cluster
record instead of two, and `logpdf_score` changes from `1/8` to `1/4`
(in the linear-space representation). -/
theorem c3_counterexample :
    exView2.Inv ∧ exView2.StatInv ∧ zrLookup 0 exView2.Zr = some 0 ∧
    ((exView2.unincorporate 0).incorporate 0 0).dims.map Dim.clusters ≠
      exView2.dims.map Dim.clusters ∧
    ((exView2.unincorporate 0).incorporate 0 0).logpdfScore ≠ exView2.logpdfScore := by
  refine ⟨by decide, by decide, by decide, by decide, ?_⟩
  have h1 : (exView2.unincorporate 0).incorporate 0 0 =
      { x := [(0, [none, none])]
        alphaGrid := [1]
        alpha := 1
        Zr := [(0, 0), (1, 0)]
        Nk := [2]
        dims := [⟨0, [], false, 1, [⟨0, 0⟩]⟩] } := by decide
  rw [h1]
  simp [View.logpdfScore, crpMarginal, Dim.score, exView2]
  intro x y hy hxy hc
  rw [hxy] at hc
  have h0 : (0 : ℚ) ≤ (y : ℚ) := Nat.cast_nonneg y
  linarith

/-- Claim C3 (amended): unincorporating an observed row and then
re-incorporating it with its original cluster label restores a state
with identical per-cluster sufficient statistics in every attached
component model and an identical `logpdf_score` value, exactly — indeed
the whole view state is restored — provided the row is not the sole
member of its cluster, or its cluster carries the highest label (for a
singleton row in a non-highest cluster, the label compaction performed
by `unincorporate` makes the original label denote a different cluster). -/
theorem c3_round_trip_identity (s : View) (rowid k0 : ℕ)
    (hInv : s.Inv) (hstat : s.StatInv)
    (hr : zrLookup rowid s.Zr = some k0)
    (hcase : countLabel s.Zr k0 ≠ 1 ∨ k0 + 1 = s.Nk.length) :
    (s.unincorporate rowid).incorporate rowid k0 = s ∧
    ((s.unincorporate rowid).incorporate rowid k0).logpdfScore = s.logpdfScore := by
  have h := View.roundTrip_restores s rowid k0 hInv hstat hr hcase
  exact ⟨h, by rw [h]⟩

/-- Claim C3, witness: the round trip of row 1, the singleton of the
highest cluster of `exView2`, restores the view exactly. -/
theorem c3_round_trip_identity_witness :
    (exView2.unincorporate 1).incorporate 1 1 = exView2 ∧
    ((exView2.unincorporate 1).incorporate 1 1).logpdfScore = exView2.logpdfScore :=
  c3_round_trip_identity _ 1 1 (by decide) (by decide) (by decide)
    (Or.inr (by decide))

/-! ## Claim C4: degenerate evidence -/

namespace View

theorem jointProbs_go_length (s : View) (q e : List (ℕ × ℚ)) (ks : List ℕ)
    (acc : List ℚ) (rng : Rng) :
    ((ks.foldl (fun (p : List ℚ × Rng) k =>
        let (q', rng') := s.logpdfJoint q e k p.2
        (p.1 ++ [q'], rng')) (acc, rng)).1).length = acc.length + ks.length := by
  induction ks generalizing acc rng with
  | nil => rfl
  | cons k t ih =>
    rw [List.foldl_cons, ih, List.length_append]
    simp only [List.length_cons, List.length_nil]
    omega

/-- `_logpdf_hypothetical` / `_simulate_hypothetical` score the evidence
under each of the `len(Nk) + 1` candidate clusters: the existing ones
plus the synthetic new one. -/
theorem jointProbs_length (s : View) (q e : List (ℕ × ℚ)) (rng : Rng) :
    ((s.jointProbs q e rng).1).length = s.Nk.length + 1 := by
  rw [View.jointProbs, jointProbs_go_length]
  simp

end View

/-- Claim C4: for every hypothetical-row query, `logpdf` and `simulate`
raise the explicit, distinct degenerate-evidence error
(`ValueError('Inf evidence!')`) precisely when the evidence has
`-infinity` log-likelihood (linear space: probability `0`) under every
candidate cluster — the `len(Nk) + 1` candidates being each existing
cluster plus the synthetic new one — and do not raise it (returning an
ordinary value rather than a NaN or silent zero) whenever at least one
candidate gives the evidence finite likelihood. -/
theorem c4_degenerate_evidence (s : View) (query : List (ℕ × ℚ)) (qcols : List ℕ)
    (evidence : List (ℕ × ℚ)) (N : ℕ) (rng : Rng) :
    ((s.jointProbs evidence [] rng).1).length = s.Nk.length + 1 ∧
    ((∃ msg, (s.logpdfHyp query evidence rng).1 = Except.error msg) ↔
      ∀ p ∈ (s.jointProbs evidence [] rng).1, p = 0) ∧
    ((∃ msg, (s.simulateHyp qcols evidence N rng).1 = Except.error msg) ↔
      ∀ p ∈ (s.jointProbs evidence [] rng).1, p = 0) := by
  refine ⟨View.jointProbs_length s evidence [] rng, ?_, ?_⟩
  · rw [View.logpdfHyp]
    by_cases hall : ((s.jointProbs evidence [] rng).1.all (fun p => decide (p = 0))) = true
    · simp only [hall, if_true]
      constructor
      · intro _ p hp
        have := List.all_eq_true.1 hall p hp
        simpa using this
      · intro _
        exact ⟨"Inf evidence!", rfl⟩
    · simp only [hall, if_false]
      constructor
      · rintro ⟨msg, hmsg⟩
        cases hmsg
      · intro hforall
        exfalso
        apply hall
        apply List.all_eq_true.2
        intro p hp
        simpa using hforall p hp
  · rw [View.simulateHyp]
    by_cases hall : ((s.jointProbs evidence [] rng).1.all (fun p => decide (p = 0))) = true
    · simp only [hall, if_true]
      constructor
      · intro _ p hp
        have := List.all_eq_true.1 hall p hp
        simpa using this
      · intro _
        exact ⟨"Inf evidence!", rfl⟩
    · simp only [hall, if_false]
      constructor
      · rintro ⟨msg, hmsg⟩
        cases hmsg
      · intro hforall
        exfalso
        apply hall
        apply List.all_eq_true.2
        intro p hp
        simpa using hforall p hp

/-! ## Claim C7: exact mixture vs importance sampling -/

namespace View

theorem logpdfJoint_uncond (s : View) (q e : List (ℕ × ℚ)) (k : ℕ) (rng : Rng)
    (h : s.noLeafs (q.map Prod.fst) e = true) :
    s.logpdfJoint q e k rng = (s.logpdfUncondP q k, rng) := by
  rw [View.logpdfJoint, if_pos h]

theorem jointProbs_go_uncond (s : View) (q e : List (ℕ × ℚ))
    (h : s.noLeafs (q.map Prod.fst) e = true) (ks : List ℕ) :
    ∀ (acc : List ℚ) (rng : Rng),
    (ks.foldl (fun (p : List ℚ × Rng) k =>
        let r := s.logpdfJoint q e k p.2
        (p.1 ++ [r.1], r.2)) (acc, rng)) =
      (acc ++ ks.map (fun k => s.logpdfUncondP q k), rng) := by
  induction ks with
  | nil => intro acc rng; simp
  | cons k t ih =>
    intro acc rng
    rw [List.foldl_cons]
    show (t.foldl (fun (p : List ℚ × Rng) k =>
        let r := s.logpdfJoint q e k p.2
        (p.1 ++ [r.1], r.2))
        (acc ++ [(s.logpdfJoint q e k rng).1], (s.logpdfJoint q e k rng).2)) = _
    rw [logpdfJoint_uncond s q e k rng h]
    show (t.foldl (fun (p : List ℚ × Rng) k =>
        let r := s.logpdfJoint q e k p.2
        (p.1 ++ [r.1], r.2)) (acc ++ [s.logpdfUncondP q k], rng)) = _
    rw [ih]
    simp

/-- Root-only queries make the candidate scoring exact: each candidate's
probability is the unconditional per-cluster value, and no oracle value
is consumed. -/
theorem jointProbs_uncond (s : View) (q e : List (ℕ × ℚ)) (rng : Rng)
    (h : s.noLeafs (q.map Prod.fst) e = true) :
    s.jointProbs q e rng =
      ((List.range (s.Nk.length + 1)).map (fun k => s.logpdfUncondP q k), rng) := by
  rw [View.jointProbs, jointProbs_go_uncond s q e h]
  simp

/-- The claim's exact finite mixture: per-cluster evidence likelihoods
over each existing cluster plus one synthetic new cluster, combined with
the CRP prior and log-normalised into posterior cluster weights, then
the posterior-weighted sum (log: logsumexp) of the per-cluster query
likelihoods. -/
def exactMixture (s : View) (query evidence : List (ℕ × ℚ)) : ℚ :=
  let cand := List.range (s.Nk.length + 1)
  let evP := cand.map (fun k => s.logpdfUncondP evidence k)
  let post := normalizeL (List.zipWith (· * ·) s.crpFresh evP)
  (List.zipWith (· * ·) post (cand.map (fun k => s.logpdfUncondP query k))).sum

/-- The claim's self-normalised importance-sampling estimate of the
per-cluster density: the mean (log: log-mean-exp) of the weights of 20
weighted proposals for evidence-plus-query, divided by (log: minus) the
mean of the weights for the evidence alone (1 when the evidence is
empty). -/
def isEstimateJoint (s : View) (query evidence : List (ℕ × ℚ)) (k : ℕ) (rng : Rng) : ℚ :=
  let wEq := s.weightedSamples (evidence ++ query) k 20 rng
  let pE : ℚ :=
    if evidence.isEmpty then 1
    else meanQ ((s.weightedSamples evidence k 20 wEq.2).1).2
  meanQ (wEq.1).2 / pE

end View

/-- Claim C7: for a hypothetical-row density query, (a) when the query
and evidence together touch only unconditional (root) columns and the
evidence is not degenerate, the result is the exact finite mixture over
each existing cluster plus one synthetic new cluster, combining the
per-cluster query likelihoods by the log-normalised posterior cluster
weights (and no randomness is consumed); (b) when a conditional (leaf)
column is touched, the per-cluster density is instead the
self-normalised importance-sampling estimate: log-mean-exp of the
weights for evidence-plus-query minus log-mean-exp of the weights for
the evidence alone. -/
theorem c7_query_engine (s : View) (query evidence : List (ℕ × ℚ)) (k : ℕ)
    (rng : Rng) :
    ((∀ c ∈ query.map Prod.fst ++ evidence.map Prod.fst, c ∈ s.unconditionalDims) →
      ¬ (∀ p ∈ (List.range (s.Nk.length + 1)).map
          (fun k => s.logpdfUncondP evidence k), p = 0) →
      s.logpdfHyp query evidence rng =
        (Except.ok (s.exactMixture query evidence), s, rng)) ∧
    (s.noLeafs (query.map Prod.fst) evidence = false →
      (s.logpdfJoint query evidence k rng).1 =
        s.isEstimateJoint query evidence k rng) := by
  constructor
  · intro hroot hnd
    have h1 : s.noLeafs (query.map Prod.fst) evidence = true := by
      rw [View.noLeafs, Bool.and_eq_true]
      constructor
      · apply List.all_eq_true.2
        intro e he
        have : e.1 ∈ query.map Prod.fst ++ evidence.map Prod.fst :=
          List.mem_append.2 (Or.inr (List.mem_map_of_mem Prod.fst he))
        simpa using hroot e.1 this
      · apply List.all_eq_true.2
        intro c hc
        have : c ∈ query.map Prod.fst ++ evidence.map Prod.fst :=
          List.mem_append.2 (Or.inl hc)
        simpa using hroot c this
    have h2 : s.noLeafs (evidence.map Prod.fst) [] = true := by
      rw [View.noLeafs, Bool.and_eq_true]
      refine ⟨by simp, ?_⟩
      apply List.all_eq_true.2
      intro c hc
      have : c ∈ query.map Prod.fst ++ evidence.map Prod.fst :=
        List.mem_append.2 (Or.inr hc)
      simpa using hroot c this
    rw [View.logpdfHyp, View.jointProbs_uncond s evidence [] rng h2]
    have hall : ((List.range (s.Nk.length + 1)).map
        (fun k => s.logpdfUncondP evidence k)).all (fun p => decide (p = 0)) = false := by
      rw [← Bool.not_eq_true, List.all_eq_true]
      intro hforall
      exact hnd (fun p hp => by simpa using hforall p hp)
    simp only [hall, Bool.false_eq_true, if_false]
    rw [View.jointProbs_uncond s query evidence rng h1]
    rfl
  · intro hb
    rw [View.logpdfJoint, View.isEstimateJoint, if_neg (by simp [hb])]
    by_cases he : evidence.isEmpty
    · simp only [he, if_true]
    · simp only [he, Bool.false_eq_true, if_false]

/-- Claim C7, witness: part (a) at a root-only view with empty evidence
(the posterior weights reduce to the CRP prior), part (b) at a view with
a conditional column touched by the query. -/
theorem c7_query_engine_witness :
    (View.logpdfHyp
        { x := [(0, [none, none])], alphaGrid := [1], alpha := 1,
          Zr := [(0, 0), (1, 1)], Nk := [1, 1],
          dims := [⟨0, [], false, 1, [⟨0, 0⟩, ⟨0, 0⟩]⟩] } [(0, 1)] [] [5] =
      (Except.ok (View.exactMixture
        { x := [(0, [none, none])], alphaGrid := [1], alpha := 1,
          Zr := [(0, 0), (1, 1)], Nk := [1, 1],
          dims := [⟨0, [], false, 1, [⟨0, 0⟩, ⟨0, 0⟩]⟩] } [(0, 1)] []),
       { x := [(0, [none, none])], alphaGrid := [1], alpha := 1,
         Zr := [(0, 0), (1, 1)], Nk := [1, 1],
         dims := [⟨0, [], false, 1, [⟨0, 0⟩, ⟨0, 0⟩]⟩] }, [5])) ∧
    (View.logpdfJoint
        { x := [(0, [none, none])], alphaGrid := [1], alpha := 1,
          Zr := [(0, 0), (1, 1)], Nk := [1, 1],
          dims := [⟨0, [], false, 1, [⟨0, 0⟩, ⟨0, 0⟩]⟩,
                   ⟨1, [0], true, 1, [⟨0, 0⟩, ⟨0, 0⟩]⟩] } [(1, 1)] [] 0 [5]).1 =
      View.isEstimateJoint
        { x := [(0, [none, none])], alphaGrid := [1], alpha := 1,
          Zr := [(0, 0), (1, 1)], Nk := [1, 1],
          dims := [⟨0, [], false, 1, [⟨0, 0⟩, ⟨0, 0⟩]⟩,
                   ⟨1, [0], true, 1, [⟨0, 0⟩, ⟨0, 0⟩]⟩] } [(1, 1)] [] 0 [5] :=
  ⟨(c7_query_engine _ [(0, 1)] [] 0 [5]).1 (by decide) (by decide),
   (c7_query_engine _ [(1, 1)] [] 0 [5]).2 (by decide)⟩

/-! ## Claim C8: the marginal score -/

/-- Claim C8: `logpdf_score()` is the CRP marginal probability of the
current row partition — with the current `alpha`, over the
`len(self.Zr)` observed rows and occupancy counts `Nk` — multiplied
(log space: plus) by the product (log: sum) over all attached columns of
the component model's total marginal likelihood. -/
theorem c8_logpdf_score (s : View) :
    s.logpdfScore =
      crpMarginal s.Zr.length s.Nk s.alpha * (s.dims.map Dim.score).prod := rfl

/-! ## Claim C10: hypothetical queries leave the state unchanged -/

namespace View

theorem logpdfHyp_view (s : View) (q e : List (ℕ × ℚ)) (rng : Rng) :
    (s.logpdfHyp q e rng).2.1 = s := by
  rw [View.logpdfHyp]
  by_cases h : ((s.jointProbs e [] rng).1.all (fun p => decide (p = 0))) = true
  · simp only [h, if_true]
  · simp only [h, Bool.false_eq_true, if_false]

theorem simulateHyp_view (s : View) (qcols : List ℕ) (e : List (ℕ × ℚ)) (N : ℕ)
    (rng : Rng) : (s.simulateHyp qcols e N rng).2.1 = s := by
  rw [View.simulateHyp]
  by_cases h : ((s.jointProbs e [] rng).1.all (fun p => decide (p = 0))) = true
  · simp only [h, if_true]
  · simp only [h, Bool.false_eq_true, if_false]

end View

/-- Claim C10: `logpdf` and `simulate` leave the view's persistent state
— the partition `Zr`, the occupancy counts `Nk`, `alpha`, the attached
columns and all their cluster statistics — unchanged for every query
(hypothetical or observed); only the RNG state advances.  In this
embedding the query path is translated exactly from the source, which
performs no assignment to any of these fields, so the view component
returned by either entry point is the input view itself. -/
theorem c10_hypothetical_frame (s : View) (rowid : ℕ)
    (query evidence : List (ℕ × ℚ)) (qcols : List ℕ) (N : ℕ) (rng : Rng) :
    (s.logpdfQ rowid query evidence rng).2.1 = s ∧
    (s.simulateQ rowid qcols evidence N rng).2.1 = s := by
  constructor
  · rw [View.logpdfQ]
    by_cases h : s.isHypothetical rowid = true
    · simp only [h, if_true]
      exact View.logpdfHyp_view s query evidence rng
    · simp only [h, Bool.false_eq_true, if_false]
  · rw [View.simulateQ]
    by_cases h : s.isHypothetical rowid = true
    · simp only [h, if_true]
      exact View.simulateHyp_view s qcols evidence N rng
    · simp only [h, Bool.false_eq_true, if_false]

/-! ## Claim C9: the observed/hypothetical dispatch -/

theorem zrLookup_isSome_iff_mem (r : ℕ) (l : List (ℕ × ℕ)) :
    (zrLookup r l).isSome ↔ r ∈ l.map Prod.fst := by
  constructor
  · intro h
    by_contra hc
    rw [← zrLookup_eq_none_iff] at hc
    rw [hc] at h
    cases h
  · intro h
    cases hz : zrLookup r l with
    | none => exact absurd ((zrLookup_eq_none_iff r l).1 hz) (by simpa using h)
    | some k => rfl

/-- Claim C9, counterexample to the statement as written: in the
reachable state obtained by constructing a three-row view and
unincorporating row 1, the partition domain is `{0, 2}` of size 2; row 2
is a member of the domain, yet `_is_hypothetical(2)` — the range check
`not (0 <= 2 < len(Zr)) = not (2 < 2)` — classifies it as hypothetical. -/
theorem c9_counterexample :
    View.ReachRaw ((View.mk0 [(0, [some 1, some 0, some 1])] [0, 0, 0] 1).unincorporate 1) ∧
    ((View.mk0 [(0, [some 1, some 0, some 1])] [0, 0, 0] 1).unincorporate 1).isHypothetical 2
      = true ∧
    (zrLookup 2 ((View.mk0 [(0, [some 1, some 0, some 1])] [0, 0, 0] 1).unincorporate
      1).Zr).isSome = true :=
  ⟨View.ReachRaw.unincorporate _ 1
      (View.ReachRaw.construct _ _ _ (by decide)) (by decide),
   by decide, by decide⟩

/-- Claim C9 (amended): a rowid passed to `logpdf` or `simulate` is
treated as observed exactly when it is smaller than the number of
observed rows (`0 <= rowid < len(self.Zr)`, a range check); this
coincides with membership in the partition domain precisely when the
domain is the canonical `{0..N-1}`.  For an observed rowid the assigned
cluster `Zr[rowid]` is used directly, with no marginalisation over
clusters. -/
theorem c9_observed_dispatch (s : View) (rowid : ℕ)
    (query evidence : List (ℕ × ℚ)) (rng : Rng) :
    (s.isHypothetical rowid = false ↔ rowid < s.Zr.length) ∧
    (s.Zr.map Prod.fst = List.range s.Zr.length →
      (s.isHypothetical rowid = false ↔ (zrLookup rowid s.Zr).isSome)) ∧
    (s.isHypothetical rowid = false →
      s.logpdfQ rowid query evidence rng =
        (Except.ok (s.logpdfJoint query
            (s.populateEvidence rowid (query.map Prod.fst) evidence)
            (s.zrOf rowid) rng).1, s,
         (s.logpdfJoint query
            (s.populateEvidence rowid (query.map Prod.fst) evidence)
            (s.zrOf rowid) rng).2)) := by
  refine ⟨?_, ?_, ?_⟩
  · rw [View.isHypothetical]
    constructor
    · intro h
      by_contra hc
      simp [hc] at h
    · intro h
      simp [h]
  · intro hkeys
    rw [View.isHypothetical, zrLookup_isSome_iff_mem, hkeys]
    constructor
    · intro h
      rw [List.mem_range]
      by_contra hc
      simp [hc] at h
    · intro h
      rw [List.mem_range] at h
      simp [h]
  · intro h
    rw [View.logpdfQ, if_neg (by rw [h]; exact Bool.false_ne_true)]

/-- Claim C9, witness: the dispatch facts at a canonical two-row view,
for its observed row 1. -/
theorem c9_observed_dispatch_witness :
    (exView2.isHypothetical 1 = false ↔ 1 < exView2.Zr.length) ∧
    (exView2.isHypothetical 1 = false ↔ (zrLookup 1 exView2.Zr).isSome) ∧
    exView2.logpdfQ 1 [(0, 1)] [] [] =
      (Except.ok (exView2.logpdfJoint [(0, 1)]
          (exView2.populateEvidence 1 [0] [])
          (exView2.zrOf 1) []).1, exView2,
       (exView2.logpdfJoint [(0, 1)]
          (exView2.populateEvidence 1 [0] [])
          (exView2.zrOf 1) []).2) :=
  ⟨(c9_observed_dispatch exView2 1 [(0, 1)] [] []).1,
   (c9_observed_dispatch exView2 1 [(0, 1)] [] []).2.1 (by decide),
   (c9_observed_dispatch exView2 1 [(0, 1)] [] []).2.2 (by decide)⟩

/-! ## Claim C5: incorporating a conditional dim -/

/-- A view whose attached columns are all conditional (one conditional
column over a two-row dataset). -/
def exView5 : View :=
  { x := [(3, [none, none])]
    alphaGrid := [1]
    alpha := 1
    Zr := [(0, 0), (1, 1)]
    Nk := [1, 1]
    dims := [⟨3, [], true, 1, [⟨0, 0⟩, ⟨0, 0⟩]⟩] }

/-- A conditional column to be incorporated. -/
def dCond5 : Dim := ⟨5, [3], true, 1, []⟩

/-- A view with no attached columns at all. -/
def exView5e : View :=
  { x := [], alphaGrid := [1], alpha := 1, Zr := [], Nk := [], dims := [] }

/-- Claim C5, counterexample to the statement as written: `exView5` has
attached columns, all of them conditional — no unconditional column
exists — yet `incorporate_dim` of the conditional column `dCond5`
succeeds, because `_prepare_incorporate` only tests
`len(self.dims) == 0`, not the presence of an unconditional column. -/
theorem c5_counterexample :
    exView5.dims ≠ [] ∧
    (∀ d ∈ exView5.dims, d.conditional = true) ∧
    dCond5.conditional = true ∧
    ∃ s', exView5.incorporateDim dCond5 true 0 = Except.ok s' :=
  ⟨by decide, by decide, rfl, ⟨_, rfl⟩⟩

/-- Claim C5 (amended): with `reassign=True`, `incorporate_dim` of a
column is rejected (`ValueError('Cannot incorporate single conditional
dim.')`) exactly when the column is conditional and the view has no
attached columns at all; with `reassign=False` no validation runs and
the call never fails. -/
theorem c5_conditional_dim_validation (s : View) (d : Dim) (seed : ℕ) :
    ((∃ msg, s.incorporateDim d true seed = Except.error msg) ↔
      d.conditional = true ∧ s.dims = []) ∧
    ∀ msg, s.incorporateDim d false seed ≠ Except.error msg := by
  refine ⟨⟨?_, ?_⟩, ?_⟩
  · rintro ⟨msg, hmsg⟩
    rw [View.incorporateDim, if_pos rfl] at hmsg
    by_cases h : s.prepareIncorporateOk d.conditional = true
    · rw [if_pos h] at hmsg
      exact Except.noConfusion hmsg
    · rw [View.prepareIncorporateOk] at h
      cases hc : d.conditional with
      | false => rw [hc] at h; simp at h
      | true =>
        cases he : s.dims with
        | nil => exact ⟨rfl, rfl⟩
        | cons a t => rw [hc, he] at h; simp at h
  · rintro ⟨hc, hd⟩
    have hp : s.prepareIncorporateOk d.conditional = false := by
      rw [View.prepareIncorporateOk, hc, hd]
      decide
    refine ⟨"Cannot incorporate single conditional dim.", ?_⟩
    rw [View.incorporateDim, if_pos rfl,
      if_neg (by rw [hp]; exact Bool.false_ne_true)]
  · intro msg h
    rw [View.incorporateDim, if_neg Bool.false_ne_true] at h
    exact Except.noConfusion h

/-- Claim C5, witness: a conditional dim into the empty-dims view is
rejected. -/
theorem c5_conditional_dim_validation_witness :
    ∃ msg, exView5e.incorporateDim dCond5 true 0 = Except.error msg :=
  (c5_conditional_dim_validation exView5e dCond5 0).1.2 ⟨rfl, rfl⟩

/-! ## Claim C6: incorporate without a cluster label -/

theorem zrLookup_insertZr_self (r k : ℕ) (l : List (ℕ × ℕ)) :
    zrLookup r (insertZr r k l) = some k := by
  induction l with
  | nil => simp [insertZr, zrLookup]
  | cons p t ih =>
    rw [insertZr]
    by_cases h1 : r < p.1
    · simp [if_pos h1, zrLookup]
    · rw [if_neg h1]
      by_cases h2 : r = p.1
      · simp [if_pos h2, zrLookup]
      · rw [if_neg h2]
        have hne : p.1 ≠ r := fun he => h2 he.symm
        simp [zrLookup, hne, ih]

/-- A one-row, one-cluster view with a positive CRP weight for a fresh
cluster. -/
def exView6 : View :=
  { x := [(0, [none, none])]
    alphaGrid := [1]
    alpha := 1
    Zr := [(0, 0)]
    Nk := [1]
    dims := [⟨0, [], false, 1, [⟨0, 0⟩]⟩] }

/-- Claim C6, counterexample to the statement as written: in `exView6`
the CRP predictive weight of a new cluster for a fresh row is positive
(`1/2`), yet `incorporate` called without a cluster label deterministically
assigns label `0` (`k = query.get(-1, 0)`) — no draw over the CRP weights
happens, and no row-transition step runs (the result is exactly the
`incorporate rowid 0` record). -/
theorem c6_counterexample :
    0 < exView6.crpFresh.getD exView6.Nk.length 0 ∧
    exView6.incorporateQuery 1 none = exView6.incorporate 1 0 ∧
    zrLookup 1 (exView6.incorporateQuery 1 none).Zr = some 0 ∧
    (exView6.incorporateQuery 1 none).Nk = [2] := by
  refine ⟨?_, rfl, by decide, by decide⟩
  have h : exView6.crpFresh.getD exView6.Nk.length 0 = 1 / 2 := by
    simp [View.crpFresh, exView6]
    norm_num
  rw [h]
  norm_num

/-- Claim C6 (amended): `incorporate` called without a cluster label
deterministically uses label `0` (the `query.get(-1, 0)` default): the
row is mapped to cluster `0` in the partition, cluster `0`'s occupancy is
incremented (a single cluster `[1]` is created when none exists), and
every attached column incorporates the row's value at cluster `0`.  No
categorical draw over the CRP weights and no row-transition step occur
(the completing source path runs `transition_rows` on an empty list). -/
theorem c6_incorporate_default_label (s : View) (rowid : ℕ) :
    s.incorporateQuery rowid none = s.incorporate rowid 0 ∧
    zrLookup rowid (s.incorporateQuery rowid none).Zr = some 0 ∧
    (s.incorporateQuery rowid none).Nk =
      (if s.Nk = [] then [1] else updNth s.Nk 0 (· + 1)) ∧
    (s.incorporateQuery rowid none).dims =
      s.dims.map (fun d => d.incorporate (s.value d.index rowid) 0) := by
  refine ⟨rfl, zrLookup_insertZr_self rowid 0 s.Zr, ?_, rfl⟩
  by_cases hN : s.Nk = []
  · rw [if_pos hN]
    show updNth (if s.Nk.length = 0 then s.Nk ++ [0] else s.Nk) 0 (· + 1) = [1]
    rw [hN]
    rfl
  · rw [if_neg hN]
    show updNth (if s.Nk.length = 0 then s.Nk ++ [0] else s.Nk) 0 (· + 1) =
      updNth s.Nk 0 (· + 1)
    rw [if_neg (fun h => hN (List.length_eq_zero.1 h))]
